import Mathlib

/-!
Shallow embedding of the Place Resolution & Linking Engine of
`modules/utils/google_maps_lookup.py`.

Conventions of the embedding:
* Python strings are modelled as `List Char` (`Str`), i.e. sequences of code
  points; `str` converts a Lean string literal.  Python's `str.lower` is
  modelled by `Char.toLower` (exact on ASCII; characters outside the kept
  alphabet are erased by the normalizer in both systems, so the composite
  normalizer agrees).
* Python floats are modelled by `ℚ`.  All scoring arithmetic
  (`0.6*j + 0.4*e`, the thresholds `0.80 / 0.92 / 0.05 / 0.55 / 0.50 / 0.75`)
  is exact rational arithmetic.
* Nullable SQLite `REAL` columns and Python `None` are modelled by `Option ℚ`.
* The SQLite tables are modelled as lists of records in rowid order together
  with the AUTOINCREMENT counter; `SELECT ... WHERE` + `fetchone` is the first
  matching element, `UPDATE ... WHERE id=?` maps over the rows, `INSERT`
  appends.
* The wall clock (`_now()`) is passed in as an opaque string parameter.
* The Selenium-backed external provider (`_extract_place_name`,
  `_extract_address_and_coords`, `_collect_search_results_topk`) is passed in
  as data: an `Option Fetch` for `search_address` (with `none` covering every
  failure path of the `try` block) and a candidate list for
  `search_address_near`.
* `difflib.SequenceMatcher.ratio` (used by `edit_sim`) is embedded exactly for
  the no-junk case that applies here (both strings are far below the 200
  character autojunk bound): `flm` is `find_longest_match` and `matchesSum`
  sums the sizes of `get_matching_blocks`.
* The great-circle distance `_haversine_m` uses `math.sin`/`cos`/`asin`,
  which have no exact computable embedding; the finite-distance kernel is a
  function parameter `dist` of `search_address_near`, while the
  `float("inf")` result for records without coordinates is modelled by
  `Option ℚ` (`none` = infinite).  Every theorem about `search_address_near`
  holds for an arbitrary `dist`.
-/

/-- Python strings as lists of code points. -/
abbrev Str := List Char

/-- Convert a Lean string literal to the `Str` model. -/
def str (s : String) : Str := s.toList

/-- Python whitespace (`str.strip`, `str.split()`, regex `\s`), restricted to
the ASCII whitespace characters. -/
def isWsChar (c : Char) : Bool :=
  c == ' ' || c == '\t' || c == '\n' || c == '\r' || c == '\x0b' || c == '\x0c'

/-- Drop a run of characters satisfying `p` from the end of a list
(`str.rstrip`). -/
def dropEndWhile (p : Char → Bool) : Str → Str
  | [] => []
  | c :: r =>
    let t := dropEndWhile p r
    if t.isEmpty then (if p c then [] else [c]) else c :: t

/-- Python `str.strip()`. -/
def pyStrip (l : Str) : Str := dropEndWhile isWsChar (l.dropWhile isWsChar)

/-- The character class kept by `normalize_keyword`'s regex
`[^0-9a-z一-鿿]+` (after lowercasing). -/
def isKept (c : Char) : Bool :=
  (48 ≤ c.toNat && c.toNat ≤ 57) || (97 ≤ c.toNat && c.toNat ≤ 122) ||
    (0x4e00 ≤ c.toNat && c.toNat ≤ 0x9fff)

/-- Lowercase a character, then replace it by a space unless it is kept:
the per-character effect of `s.lower()` followed by the substitution
`re.sub(r"[^0-9a-z一-鿿]+", " ", s)`. -/
def lowSub (c : Char) : Char :=
  let c' := c.toLower
  if isKept c' then c' else ' '

/-- Collapse every run of spaces to a single space
(`re.sub(r"\s+", " ", s)`; at this stage of the pipeline the only whitespace
character left is `' '`, and a maximal run of replaced characters became a run
of spaces). -/
def collapseSp : Str → Str
  | [] => []
  | c :: r =>
    match r with
    | [] => [c]
    | c₂ :: _ => if c == ' ' && c₂ == ' ' then collapseSp r else c :: collapseSp r

/-- Embedding of `normalize_keyword`: lowercase, replace every maximal run of
characters outside `{0-9, a-z, U+4E00..U+9FFF}` by one space, and trim.  (The
initial `.strip()` of the source is subsumed by the final one.) -/
def normalize_keyword (s : Str) : Str :=
  dropEndWhile (· == ' ') ((collapseSp (s.map lowSub)).dropWhile (· == ' '))

/-- Python `"x;y".split(";")` (keeps empty segments; `"".split(";") = [""]`). -/
def splitSemi : Str → List Str
  | [] => [[]]
  | c :: r =>
    if c == ';' then [] :: splitSemi r
    else
      match splitSemi r with
      | [] => [[c]]
      | s :: rest => (c :: s) :: rest

/-- Python `";".join(l)`. -/
def joinSemi : List Str → Str
  | [] => []
  | [a] => a
  | a :: r => a ++ ';' :: joinSemi r

/-- Helper of `pySplitWs`: accumulate the current (reversed) word. -/
def pySplitWsAux : Str → Str → List Str
  | cur, [] => if cur = [] then [] else [cur.reverse]
  | cur, c :: r =>
    if isWsChar c then
      if cur = [] then pySplitWsAux [] r else cur.reverse :: pySplitWsAux [] r
    else pySplitWsAux (c :: cur) r

/-- Python `str.split()` with no argument: split on whitespace runs, dropping
empty fields. -/
def pySplitWs (l : Str) : List Str := pySplitWsAux [] l

/-- The stop-word set `STOPWORDS_BASE`; `_stopwords()` additionally inserts
`CITY_FOR_QUERY_EN.lower() = "amsterdam"`, which is already a member. -/
def STOPWORDS : List Str :=
  [str "amsterdam", str "hotel", str "hotels", str "the", str "by",
   str "hostel", str "inn", str "apartment", str "apartments",
   str "residence", str "collection", str "city", str "center",
   str "centre", str "netherlands"]

/-- Order-preserving deduplication with a seen-set accumulator. -/
def dedupAux (seen : List Str) : List Str → List Str
  | [] => []
  | x :: r => if seen.contains x then dedupAux seen r else x :: dedupAux (x :: seen) r

/-- Embedding of `token_set`: normalized tokens with stop words removed,
deduplicated preserving first occurrence. -/
def token_set (s : Str) : List Str :=
  dedupAux [] ((pySplitWs (normalize_keyword s)).filter (fun t => ¬ STOPWORDS.contains t))

/-- Embedding of `jaccard` on token lists: `|A∩B| / |A∪B|`, `0` if either set
is empty. -/
def jaccard (a b : List Str) : ℚ :=
  let sa := dedupAux [] a
  let sb := dedupAux [] b
  if sa ≠ [] ∧ sb ≠ [] then
    ((sa.filter (fun x => sb.contains x)).length : ℚ) /
      ((sa ++ sb.filter (fun x => ¬ sa.contains x)).length : ℚ)
  else 0

/-- Lookup in the association list modelling `difflib`'s `j2len` dict
(`j2len.get(j, 0)`). -/
def lookupJ (l : List (Nat × Nat)) (j : Nat) : Nat :=
  ((l.find? (fun p => p.1 == j)).map (fun p => p.2)).getD 0

/-- State of `find_longest_match`: best block start indices and size. -/
structure FlmRes where
  i : Nat
  j : Nat
  size : Nat
deriving DecidableEq, Repr

/-- One row (one value of `i`) of the `find_longest_match` dynamic program:
scan `j` over `[blo, bhi)`, extending runs recorded in the previous row's
`j2len`.  Returns the new row's `j2len` and the updated best block. -/
def flmRow (b : Str) (ai : Char) (blo bhi : Nat) (j2len : List (Nat × Nat))
    (st : FlmRes) (i : Nat) : List (Nat × Nat) × FlmRes :=
  (List.range' blo (bhi - blo)).foldl
    (fun acc j =>
      if b.get? j == some ai then
        let k := (if j == 0 then 0 else lookupJ j2len (j - 1)) + 1
        let st' := if k > acc.2.size then FlmRes.mk (i + 1 - k) (j + 1 - k) k else acc.2
        ((j, k) :: acc.1, st')
      else acc)
    ([], st)

/-- Embedding of `SequenceMatcher.find_longest_match(alo, ahi, blo, bhi)` with
no junk (the pipeline never reaches the 200-character autojunk bound, so the
two post-loop junk-extension passes of `difflib` are no-ops). -/
def flm (a b : Str) (alo ahi blo bhi : Nat) : FlmRes :=
  ((List.range' alo (ahi - alo)).foldl
    (fun (acc : List (Nat × Nat) × FlmRes) i =>
      match a.get? i with
      | some ai => flmRow b ai blo bhi acc.1 acc.2 i
      | none => acc)
    ([], FlmRes.mk alo blo 0)).2

/-- Total size of `get_matching_blocks`: recursively split around the longest
match.  `fuel` dominates the recursion depth (each level shrinks the combined
window size by at least one). -/
def matchesSum (a b : Str) : Nat → Nat → Nat → Nat → Nat → Nat
  | 0, _, _, _, _ => 0
  | fuel + 1, alo, ahi, blo, bhi =>
    let r := flm a b alo ahi blo bhi
    if r.size == 0 then 0
    else
      r.size + matchesSum a b fuel alo r.i blo r.j +
        matchesSum a b fuel (r.i + r.size) ahi (r.j + r.size) bhi

/-- Embedding of `SequenceMatcher(None, a, b).ratio()`:
`2*M / (len(a)+len(b))`, and `1.0` when both strings are empty. -/
def smRatio (a b : Str) : ℚ :=
  let la := a.length
  let lb := b.length
  if la + lb == 0 then 1
  else 2 * ((matchesSum a b (la + lb + 1) 0 la 0 lb : ℕ) : ℚ) / ((la + lb : ℕ) : ℚ)

/-- Python `" ".join(tokens)`. -/
def joinSp : List Str → Str
  | [] => []
  | [a] => a
  | a :: r => a ++ ' ' :: joinSp r

/-- Embedding of `edit_sim`: the matcher ratio of the space-joined,
stop-word-filtered token forms. -/
def edit_sim (a b : Str) : ℚ := smRatio (joinSp (token_set a)) (joinSp (token_set b))

/-- Code-point lexicographic order on strings (Python `<` on `str`). -/
def strLt : Str → Str → Bool
  | [], [] => false
  | [], _ :: _ => true
  | _ :: _, [] => false
  | a :: as', b :: bs' =>
    if a.toNat < b.toNat then true
    else if b.toNat < a.toNat then false
    else strLt as' bs'

/-- Insert into a strictly sorted list, dropping duplicates. -/
def insSorted (x : Str) : List Str → List Str
  | [] => [x]
  | y :: ys => if strLt x y then x :: y :: ys else if x = y then y :: ys else y :: insSorted x ys

/-- Embedding of Python `sorted(set(l))` for a list of strings. -/
def sortDedup (l : List Str) : List Str := l.foldr insSorted []

/-- Parse a stored `keywords` column the way the source does everywhere:
`[normalize_keyword(k) for k in s.split(";") if k.strip()]`. -/
def kwListOf (s : Str) : List Str :=
  ((splitSemi s).filter (fun k => pyStrip k ≠ [])).map normalize_keyword

/-- Embedding of `_merge_keywords`: append the normalized new keyword if
non-empty and absent, then rejoin `sorted(set(...))`. -/
def merge_keywords (old newKw : Str) : Str :=
  let old_list := kwListOf old
  let new_norm := normalize_keyword newKw
  let lst :=
    if new_norm ≠ [] ∧ ¬ old_list.contains new_norm then old_list ++ [new_norm]
    else old_list
  joinSemi (sortDedup lst)

/-- A row of the `hotels` / `pickup_locations` table, after `_row_to_obj`'s
renaming of `latitude`/`longitude` to `lat`/`lng`.  Dict results whose source
omits `created_at`/`updated_at` (the dicts built by `save_or_update_db`) carry
`[]` in those fields. -/
structure Rec where
  id : Nat
  name : Str
  keywords : Str
  street : Str
  city : Str
  address : Str
  lat : Option ℚ
  lng : Option ℚ
  place_id : Str
  created_at : Str
  updated_at : Str
  notes : Str
deriving DecidableEq, Repr

/-- One of the two place tables: rows in rowid order plus the AUTOINCREMENT
counter. -/
structure Table where
  rows : List Rec
  nextId : Nat
deriving DecidableEq, Repr

/-- Embedding of `_append_keyword_to_id`: merge the keyword into the row with
the given id; write (and refresh `updated_at`) only when the merge changed the
column. -/
def append_keyword_to_id (t : Table) (rec_id : Nat) (new_kw now : Str) : Table :=
  match t.rows.find? (fun r => decide (r.id = rec_id)) with
  | none => t
  | some r =>
    let merged := merge_keywords r.keywords new_kw
    if merged ≠ r.keywords then
      { t with rows := t.rows.map (fun x =>
          if x.id = rec_id then { x with keywords := merged, updated_at := now } else x) }
    else t

/-- Embedding of `find_in_db_exact_keywords_only`: first row whose parsed
keyword list contains the normalized query. -/
def find_in_db_exact_keywords_only (query : Str) (rows : List Rec) : Option Rec :=
  rows.find? (fun r => (kwListOf r.keywords).contains (normalize_keyword query))

/-- Embedding of `_best_kw_metrics`: maximum `(score, jaccard, edit)` triple
over the record's keywords, componentwise tracked under strict improvement of
the score (`(0,0,0)` for an empty keyword list). -/
def best_kw_metrics (query kw_text : Str) : ℚ × ℚ × ℚ :=
  let kws := (splitSemi kw_text).filter (fun k => pyStrip k ≠ [])
  let q_tokens := token_set query
  kws.foldl
    (fun best k =>
      let j := jaccard q_tokens (token_set k)
      let e := edit_sim query k
      let s := (0.6 : ℚ) * j + (0.4 : ℚ) * e
      if s > best.1 then (s, j, e) else best)
    (0, 0, 0)

/-- Score every row against the query (`scored` in
`find_best_in_db_precise`). -/
def scoredOf (query : Str) (rows : List Rec) : List ((ℚ × ℚ × ℚ) × Rec) :=
  rows.map (fun r => (best_kw_metrics query r.keywords, r))

/-- Stable insertion for the descending-by-score sort
(`scored.sort(key=lambda x: x[0], reverse=True)`). -/
def insDesc (x : (ℚ × ℚ × ℚ) × Rec) :
    List ((ℚ × ℚ × ℚ) × Rec) → List ((ℚ × ℚ × ℚ) × Rec)
  | [] => [x]
  | y :: ys => if x.1.1 ≥ y.1.1 then x :: y :: ys else y :: insDesc x ys

/-- Python's stable sort, descending by score. -/
def sortByScoreDesc (l : List ((ℚ × ℚ × ℚ) × Rec)) : List ((ℚ × ℚ × ℚ) × Rec) :=
  l.foldr insDesc []

/-- Decision core of `find_best_in_db_precise` after scoring: rank by score
descending and accept the top record only if its best jaccard is at least
`JACCARD_MIN = 0.80`, its best edit similarity at least `EDIT_SIM_MIN = 0.92`,
and its lead over the second best score at least `TOP2_MARGIN_MIN = 0.05`
(second best score defaulting to `0`). -/
def secondScore (rest : List ((ℚ × ℚ × ℚ) × Rec)) : ℚ :=
  match rest with
  | [] => 0
  | t :: _ => t.1.1

def precise_core (scored : List ((ℚ × ℚ × ℚ) × Rec)) : Option Rec :=
  match sortByScoreDesc scored with
  | [] => none
  | top :: rest =>
    if top.1.2.1 ≥ (0.80 : ℚ) ∧ top.1.2.2 ≥ (0.92 : ℚ) ∧
        top.1.1 - secondScore rest ≥ (0.05 : ℚ)
    then some top.2 else none

/-- Embedding of `find_best_in_db_precise`. -/
def find_best_in_db_precise (query : Str) (rows : List Rec) : Option Rec :=
  if rows.isEmpty then none else precise_core (scoredOf query rows)

/-- Check whether the tail of the string matches the regex
`,?\s*(the\s+)?netherlands\s*$` of `_clean_country_suffix`
(case-insensitively). -/
def nlTail (t : Str) : Bool :=
  let t1 := match t with | ',' :: r => r | _ => t
  let t2 := t1.dropWhile isWsChar
  let t3 :=
    if (t2.take 3).map Char.toLower = str "the" ∧ ((t2.drop 3).head?.map isWsChar).getD false
    then (t2.drop 3).dropWhile isWsChar else t2
  (t3.take 11).map Char.toLower = str "netherlands" ∧ (t3.drop 11).all isWsChar

/-- Remove the leftmost match of the country-suffix regex
(`re.sub(pattern, "", addr)`: every match of the pattern is anchored at the end
of the string, so removal truncates at the leftmost matching position). -/
def cleanSubNl (s : Str) : Str :=
  match (List.range (s.length + 1)).find? (fun p => nlTail (s.drop p)) with
  | some p => s.take p
  | none => s

/-- Embedding of `_clean_country_suffix`. -/
def clean_country_suffix (s : Str) : Str :=
  if s = [] then [] else dropEndWhile (· == ',') (pyStrip (cleanSubNl s))

/-- Python `addr.split(",")` (keeps empty segments). -/
def splitComma : Str → List Str
  | [] => [[]]
  | c :: r =>
    if c == ',' then [] :: splitComma r
    else
      match splitComma r with
      | [] => [[c]]
      | s :: rest => (c :: s) :: rest

/-- Embedding of `_split_address`: `(street, city)` — first comma field and
last word of the last comma field of the cleaned address. -/
def split_address (addr0 : Str) : Str × Str :=
  let addr := clean_country_suffix addr0
  if addr = [] then ([], [])
  else
    let parts := ((splitComma addr).map pyStrip).filter (fun p => p ≠ [])
    match parts with
    | [] => ([], [])
    | p :: _ =>
      (p, (((pySplitWs ((parts.getLast?).getD [])).getLast?).getD []))

/-- Python's `new or old` on an optional float: `None` and `0.0` are falsy, so
the old value survives exactly when the new one is absent or zero. -/
def pyOrQ (new old : Option ℚ) : Option ℚ :=
  match new with
  | none => old
  | some v => if v = 0 then old else some v

/-- Embedding of `save_or_update_db`.  Returns the dict the source returns and
the table after the write.  In the update branch the SQL `UPDATE` sets
`keywords, address, street, city, latitude, longitude, place_id, notes,
updated_at` on the row with the matched id — `address`/`street`/`city`/`notes`
unconditionally from the (cleaned) new values, coordinates through `lat or
old_lat` / `lng or old_lng`, `place_id` through `place_id or (old_pid or "")`.
In the insert branch coordinates are stored through `lat or 0.0` /
`lng or 0.0`. -/
def save_or_update_db (t : Table) (official_name new_keyword address : Str)
    (lat lng : Option ℚ) (place_id notes now : Str) : Rec × Table :=
  let addr := clean_country_suffix address
  let sc := split_address addr
  match t.rows.find? (fun r => decide (r.name = official_name)) with
  | some old =>
    let merged := merge_keywords old.keywords new_keyword
    let newRows := t.rows.map (fun x =>
      if x.id = old.id then
        { x with keywords := merged, address := addr, street := sc.1, city := sc.2,
                 lat := pyOrQ lat old.lat, lng := pyOrQ lng old.lng,
                 place_id := if place_id ≠ [] then place_id else old.place_id,
                 notes := notes, updated_at := now }
      else x)
    let ret : Rec :=
      { id := old.id, name := official_name, keywords := merged,
        street := sc.1, city := sc.2, address := addr,
        lat := pyOrQ lat old.lat, lng := pyOrQ lng old.lng,
        place_id := if place_id ≠ [] then place_id else old.place_id,
        created_at := [], updated_at := [], notes := notes }
    (ret, { t with rows := newRows })
  | none =>
    let stored : Rec :=
      { id := t.nextId, name := official_name,
        keywords := normalize_keyword new_keyword,
        street := sc.1, city := sc.2, address := addr,
        lat := pyOrQ lat (some 0), lng := pyOrQ lng (some 0),
        place_id := place_id, created_at := now, updated_at := now,
        notes := notes }
    let ret : Rec := { stored with created_at := [], updated_at := [] }
    (ret, { rows := t.rows ++ [stored], nextId := t.nextId + 1 })

/-- The data the Google-Maps scrape of `search_address` yields on success:
`_extract_place_name` and `_extract_address_and_coords` (address already
country-stripped by the scraper, coordinates optional).  A `none` provider
models every failure path of the `try` block. -/
structure Fetch where
  official_name : Str
  address : Str
  lat : Option ℚ
  lng : Option ℚ
deriving DecidableEq, Repr

/-- Embedding of `search_address`: exact keyword stage, then scored precise
stage (the Python `or` short-circuits), appending the query as a keyword on a
local hit; otherwise the provider result is persisted with `save_or_update_db`
(official name falling back to the query when the scraped name is empty). -/
def search_address (t : Table) (query : Str) (provider : Option Fetch)
    (now : Str) : Option Rec × Table :=
  if query = [] then (none, t)
  else
    let loc :=
      match find_in_db_exact_keywords_only query t.rows with
      | some r => some r
      | none => find_best_in_db_precise query t.rows
    match loc with
    | some r =>
      let t' := if r.id ≠ 0 then append_keyword_to_id t r.id query now else t
      (some r, t')
    | none =>
      match provider with
      | none => (none, t)
      | some f =>
        let p := save_or_update_db t
          (if f.official_name = [] then query else f.official_name) query
          f.address f.lat f.lng [] [] now
        (some p.1, p.2)

/-- A candidate scraped from the search-results list
(`_collect_search_results_topk`). -/
structure Cand where
  name : Str
  address : Str
  lat : Option ℚ
  lng : Option ℚ
deriving DecidableEq, Repr

/-- Embedding of `_haversine_m` up to the trigonometric kernel `dist`:
`float(None)` raises, caught as `float("inf")`, modelled by `none`; with both
coordinates present the finite value `dist lat1 lon1 lat2 lon2` results. -/
def havOpt (dist : ℚ → ℚ → ℚ → ℚ → ℚ) (lat1 lon1 : ℚ) (lat2 lon2 : Option ℚ) :
    Option ℚ :=
  match lat2, lon2 with
  | some a, some b => some (dist lat1 lon1 a b)
  | _, _ => none

/-- Strict comparison of distances with `none` as `float("inf")`. -/
def distLt (a b : Option ℚ) : Bool :=
  match a, b with
  | none, _ => false
  | some _, none => true
  | some x, some y => decide (x < y)

/-- Equality of distances with `none` as `float("inf")`. -/
def distEq (a b : Option ℚ) : Bool :=
  match a, b with
  | none, none => true
  | some x, some y => decide (x = y)
  | _, _ => false

/-- The sort key order of `pool.sort(key=lambda x: (x[0], -x[1]))`:
ascending distance, then descending score. -/
def poolLe (x y : Option ℚ × ℚ × Rec) : Bool :=
  if distEq x.1 y.1 then decide (y.2.1 ≤ x.2.1) else distLt x.1 y.1

/-- Stable insertion for the pool sort. -/
def insPool (x : Option ℚ × ℚ × Rec) :
    List (Option ℚ × ℚ × Rec) → List (Option ℚ × ℚ × Rec)
  | [] => [x]
  | y :: ys => if poolLe x y then x :: y :: ys else y :: insPool x ys

/-- Python's stable sort by `(distance, -score)`. -/
def sortPool (l : List (Option ℚ × ℚ × Rec)) : List (Option ℚ × ℚ × Rec) :=
  l.foldr insPool []

/-- The local candidate pool of `search_address_near`: every record whose best
metrics pass the relaxed bar `s ≥ 0.55 or (j ≥ 0.50 and e ≥ 0.75)`, tagged
with its distance to the reference point and its score. -/
def poolOf (dist : ℚ → ℚ → ℚ → ℚ → ℚ) (t : Table) (query : Str)
    (near_lat near_lng : ℚ) : List (Option ℚ × ℚ × Rec) :=
  t.rows.filterMap (fun r =>
    let m := best_kw_metrics query r.keywords
    if m.1 ≥ (0.55 : ℚ) ∨ (m.2.1 ≥ (0.50 : ℚ) ∧ m.2.2 ≥ (0.75 : ℚ)) then
      some (havOpt dist near_lat near_lng r.lat r.lng, m.1, r)
    else none)

/-- Decimal digits of a natural number. -/
def natDigits (n : Nat) : Str := Nat.toDigits 10 n

/-- Render a rational for the `notes` stamp (stands in for Python's float
formatting inside the f-string). -/
def reprQ (q : ℚ) : Str :=
  (if q < 0 then ['-'] else []) ++ natDigits q.num.natAbs ++
    (if q.den = 1 then [] else '/' :: natDigits q.den)

/-- The provenance stamp `f"nearest to ({near_lat},{near_lng})"`. -/
def notesStamp (la ln : ℚ) : Str :=
  str "nearest to (" ++ reprQ la ++ [','] ++ reprQ ln ++ [')']

/-- Stable insertion for the provider-candidate sort by distance. -/
def insCand (x : Cand × ℚ) : List (Cand × ℚ) → List (Cand × ℚ)
  | [] => [x]
  | y :: ys => if x.2 ≤ y.2 then x :: y :: ys else y :: insCand x ys

/-- Python's stable sort of the finite-distance candidates by distance. -/
def sortCand (l : List (Cand × ℚ)) : List (Cand × ℚ) := l.foldr insCand []

/-- Embedding of `search_address_near`.  Stage 1: sort the relaxed local pool
by `(distance, -score)` and return its head when that has finite distance
(appending the query to its keywords).  Stage 2: from the scraped candidates,
keep those with finite distance; the source then rebinds `cands` to that
filtered list, so when it is empty the `cands[0] if cands else ...` fallback
can only ever produce the synthetic `{name: query, address: ""}` candidate
(the first scraped candidate is unreachable there — kept faithfully below);
otherwise the nearest finite candidate is chosen.  The choice is persisted via
`save_or_update_db` with the `notes` stamp of the reference coordinate. -/
def search_address_near (dist : ℚ → ℚ → ℚ → ℚ → ℚ) (t : Table) (query : Str)
    (near_lat near_lng : ℚ) (cands : List Cand) (now : Str) : Option Rec × Table :=
  if pyStrip query = [] then (none, t)
  else
    match sortPool (poolOf dist t query near_lat near_lng) with
    | (some _, _, best) :: _ =>
      let t' := if best.id ≠ 0 then append_keyword_to_id t best.id query now else t
      (some best, t')
    | _ =>
      if cands = [] then (none, t)
      else
        let finite := cands.filterMap (fun c =>
          match havOpt dist near_lat near_lng c.lat c.lng with
          | some d => some (c, d)
          | none => none)
        let chosen : Cand :=
          if finite = [] then
            match finite.head? with
            | some p => p.1
            | none => { name := query, address := [], lat := none, lng := none }
          else ((sortCand finite).headD ({ name := query, address := [], lat := none, lng := none }, 0)).1
        let p := save_or_update_db t
          (if chosen.name = [] then query else chosen.name) query
          chosen.address chosen.lat chosen.lng []
          (notesStamp near_lat near_lng) now
        (some p.1, p.2)

/-- A row of `hotel_pickup_links`. -/
structure LinkRow where
  id : Nat
  hotel_id : Nat
  hotel_name : Str
  pickup_id : Nat
  pickup_name : Str
  priority : Int
  notes : Str
  created_at : Str
  updated_at : Str
deriving DecidableEq, Repr

/-- The link table with its AUTOINCREMENT counter. -/
structure LinkTable where
  rows : List LinkRow
  nextId : Nat
deriving DecidableEq, Repr

/-- The whole store: the two place tables and the link table. -/
structure Sys where
  hotels : Table
  pickup : Table
  links : LinkTable
deriving DecidableEq, Repr

/-- The link-write core of `link_hotel_to_pickup`: update `priority`/`notes`
(and the name snapshots and `updated_at`) of the first row with the given
`(hotel_id, pickup_id)` pair, or insert a fresh row.  Returns the link id. -/
def upsert_link (lt : LinkTable) (hid : Nat) (hname : Str) (pid : Nat)
    (pname : Str) (priority : Int) (notes now : Str) : Nat × LinkTable :=
  match lt.rows.find? (fun row => decide (row.hotel_id = hid ∧ row.pickup_id = pid)) with
  | some row =>
    (row.id,
     { lt with rows := lt.rows.map (fun x =>
         if x.id = row.id then
           { x with hotel_name := hname, pickup_name := pname,
                    priority := priority, notes := notes, updated_at := now }
         else x) })
  | none =>
    (lt.nextId,
     { rows := lt.rows ++
         [{ id := lt.nextId, hotel_id := hid, hotel_name := hname,
            pickup_id := pid, pickup_name := pname, priority := priority,
            notes := notes, created_at := now, updated_at := now }],
       nextId := lt.nextId + 1 })

/-- One side of `link_hotel_to_pickup`: exact keyword stage, then scored
precise stage (neither appends a keyword here), then — only when
`create_if_missing` — the full `search_address`. -/
def resolve_side (t : Table) (q : Str) (cim : Bool) (provider : Option Fetch)
    (now : Str) : Option Rec × Table :=
  match find_in_db_exact_keywords_only q t.rows with
  | some r => (some r, t)
  | none =>
    match find_best_in_db_precise q t.rows with
    | some r => (some r, t)
    | none => if cim then search_address t q provider now else (none, t)

/-- The result dict of `link_hotel_to_pickup`. -/
structure LinkResult where
  link_id : Nat
  hotel : Rec
  pickup : Rec
  priority : Int
  notes : Str
deriving DecidableEq, Repr

/-- Embedding of `link_hotel_to_pickup`: resolve both sides (each side may
create its record when `create_if_missing`), return `none` — leaving the link
table untouched — unless both resolved, else upsert the link row. -/
def link_hotel_to_pickup (s : Sys) (hotel_query pickup_query : Str)
    (priority : Int) (notes : Str) (cim : Bool) (hProv pProv : Option Fetch)
    (now : Str) : Option LinkResult × Sys :=
  let hp := resolve_side s.hotels hotel_query cim hProv now
  let pp := resolve_side s.pickup pickup_query cim pProv now
  match hp.1, pp.1 with
  | some h, some p =>
    let ul := upsert_link s.links h.id h.name p.id p.name priority notes now
    (some { link_id := ul.1, hotel := h, pickup := p, priority := priority, notes := notes },
     { hotels := hp.2, pickup := pp.2, links := ul.2 })
  | _, _ => (none, { hotels := hp.2, pickup := pp.2, links := s.links })

/-- Resolve a hotel/pickup argument of `unlink_hotel_pickup` to an id: an
integer is passed through, a text query goes through the exact and precise
stages (read-only). -/
def resolve_id_ro (t : Table) (x : Nat ⊕ Str) : Option Nat :=
  match x with
  | Sum.inl i => some i
  | Sum.inr q =>
    match find_in_db_exact_keywords_only q t.rows with
    | some r => some r.id
    | none =>
      match find_best_in_db_precise q t.rows with
      | some r => some r.id
      | none => none

/-- Embedding of `unlink_hotel_pickup`: resolve both sides read-only, then
delete every link row of the pair, returning the count removed. -/
def unlink_hotel_pickup (s : Sys) (hotel pickup : Nat ⊕ Str) : Nat × Sys :=
  match resolve_id_ro s.hotels hotel with
  | none => (0, s)
  | some hid =>
    match resolve_id_ro s.pickup pickup with
    | none => (0, s)
    | some pid =>
      let deleted := (s.links.rows.filter
        (fun r => decide (r.hotel_id = hid ∧ r.pickup_id = pid))).length
      (deleted,
       { s with links := { s.links with
           rows := (s.links.rows.filter
             (fun r => decide (¬ (r.hotel_id = hid ∧ r.pickup_id = pid)))) } })


/-! Infrastructure: characters produced by the normalizer. -/

theorem dropEndWhile_cons (p : Char → Bool) (c : Char) (r : Str) :
    dropEndWhile p (c :: r) =
      if (dropEndWhile p r).isEmpty then (if p c then [] else [c])
      else c :: dropEndWhile p r := rfl

/-- Every character `lowSub` produces is kept or a space. -/
theorem lowSub_good (c : Char) : isKept (lowSub c) = true ∨ lowSub c = ' ' := by
  unfold lowSub
  by_cases h : isKept c.toLower = true
  · left
    simp [h]
  · right
    simp [h]

/-- Kept characters are not upper-case ASCII letters. -/
theorem isKept_not_upper (c : Char) (h : isKept c = true) :
    ¬ (c.toNat ≥ 65 ∧ c.toNat ≤ 90) := by
  simp only [isKept, Bool.or_eq_true, Bool.and_eq_true, decide_eq_true_eq] at h
  omega

/-- `toLower` fixes kept characters. -/
theorem toLower_of_isKept (c : Char) (h : isKept c = true) : c.toLower = c := by
  have := isKept_not_upper c h
  simp only [Char.toLower, Char.toNat] at *
  rw [if_neg]
  omega

/-- `lowSub` fixes kept characters and the space. -/
theorem lowSub_fix (c : Char) (h : isKept c = true ∨ c = ' ') : lowSub c = c := by
  rcases h with h | h
  · unfold lowSub
    rw [toLower_of_isKept c h]
    simp [h]
  · subst h
    decide

/-! Infrastructure: `collapseSp` and the trimming helpers. -/

theorem collapseSp_cons₂ (c c₂ : Char) (r : Str) :
    collapseSp (c :: c₂ :: r) =
      if c == ' ' && c₂ == ' ' then collapseSp (c₂ :: r) else c :: collapseSp (c₂ :: r) := rfl

/-- `collapseSp` only keeps characters of its input. -/
theorem mem_collapseSp (l : Str) (c : Char) (h : c ∈ collapseSp l) : c ∈ l := by
  induction l with
  | nil => exact h
  | cons a r ih =>
    cases r with
    | nil => exact h
    | cons a₂ r₂ =>
      rw [collapseSp_cons₂] at h
      by_cases hsp : (a == ' ' && a₂ == ' ') = true
      · rw [if_pos hsp] at h
        exact List.mem_cons_of_mem a (ih h)
      · rw [if_neg hsp] at h
        rcases List.mem_cons.mp h with h | h
        · exact h ▸ List.mem_cons_self a _
        · exact List.mem_cons_of_mem a (ih h)

/-- `collapseSp` keeps the head of its input. -/
theorem collapseSp_cons_head (c : Char) (r : Str) :
    ∃ t, collapseSp (c :: r) = c :: t := by
  induction r generalizing c with
  | nil => exact ⟨[], rfl⟩
  | cons c₂ r₂ ih =>
    rw [collapseSp_cons₂]
    by_cases hsp : (c == ' ' && c₂ == ' ') = true
    · rw [if_pos hsp]
      obtain ⟨t, ht⟩ := ih c₂
      have hc : c = c₂ := by
        have h1 := (Bool.and_eq_true _ _).mp hsp
        have h2 : c = ' ' := by simpa using h1.1
        have h3 : c₂ = ' ' := by simpa using h1.2
        rw [h2, h3]
      exact ⟨t, by rw [ht, hc]⟩
    · rw [if_neg hsp]
      exact ⟨collapseSp (c₂ :: r₂), rfl⟩

/-- A string with no two adjacent spaces. -/
def noDbl : Str → Bool
  | [] => true
  | [_] => true
  | c :: c₂ :: r => !(c == ' ' && c₂ == ' ') && noDbl (c₂ :: r)

theorem noDbl_cons₂ (c c₂ : Char) (r : Str) :
    noDbl (c :: c₂ :: r) = (!(c == ' ' && c₂ == ' ') && noDbl (c₂ :: r)) := rfl

/-- The collapse pass leaves no two adjacent spaces. -/
theorem noDbl_collapseSp (l : Str) : noDbl (collapseSp l) = true := by
  induction l with
  | nil => rfl
  | cons c r ih =>
    cases r with
    | nil => rfl
    | cons c₂ r₂ =>
      rw [collapseSp_cons₂]
      by_cases hsp : (c == ' ' && c₂ == ' ') = true
      · rw [if_pos hsp]
        exact ih
      · rw [if_neg hsp]
        obtain ⟨t, ht⟩ := collapseSp_cons_head c₂ r₂
        rw [ht]
        rw [ht] at ih
        rw [noDbl_cons₂]
        simp [ih, hsp]

theorem noDbl_tail (c : Char) (r : Str) (h : noDbl (c :: r) = true) : noDbl r = true := by
  cases r with
  | nil => rfl
  | cons c₂ r₂ => exact ((Bool.and_eq_true _ _).mp h).2

/-- Dropping a prefix preserves `noDbl`. -/
theorem noDbl_dropWhile (p : Char → Bool) (l : Str) (h : noDbl l = true) :
    noDbl (l.dropWhile p) = true := by
  induction l with
  | nil => exact h
  | cons c r ih =>
    rw [List.dropWhile_cons]
    by_cases hp : p c = true
    · rw [if_pos hp]
      exact ih (noDbl_tail c r h)
    · rw [if_neg hp]
      exact h

/-- `dropEndWhile` keeps the head of its input (or is empty). -/
theorem dropEndWhile_cons_head (p : Char → Bool) (c : Char) (r : Str) :
    dropEndWhile p (c :: r) = [] ∨ ∃ t, dropEndWhile p (c :: r) = c :: t := by
  rw [dropEndWhile_cons]
  by_cases he : (dropEndWhile p r).isEmpty = true
  · rw [if_pos he]
    by_cases hp : p c = true
    · left
      simp [hp]
    · right
      exact ⟨[], by simp [hp]⟩
  · rw [if_neg he]
    right
    exact ⟨dropEndWhile p r, rfl⟩

/-- Dropping a suffix preserves `noDbl`. -/
theorem noDbl_dropEndWhile (p : Char → Bool) (l : Str) (h : noDbl l = true) :
    noDbl (dropEndWhile p l) = true := by
  induction l with
  | nil => exact h
  | cons c r ih =>
    have ih' := ih (noDbl_tail c r h)
    rw [dropEndWhile_cons]
    by_cases he : (dropEndWhile p r).isEmpty = true
    · rw [if_pos he]
      by_cases hp : p c = true
      · rw [if_pos hp]
        rfl
      · simp [hp, noDbl]
    · rw [if_neg he]
      cases hr : dropEndWhile p r with
      | nil => exact absurd (by rw [hr]; rfl) he
      | cons x xs =>
        rw [hr] at ih'
        cases r with
        | nil => simp [dropEndWhile] at hr
        | cons c₂ r₂ =>
          rcases dropEndWhile_cons_head p c₂ r₂ with h0 | ⟨t, ht⟩
          · rw [h0] at hr
            exact absurd hr (by simp)
          · rw [ht] at hr
            obtain ⟨hx, hxs⟩ := List.cons.inj hr
            rw [noDbl_cons₂]
            refine (Bool.and_eq_true _ _).mpr ⟨?_, ih'⟩
            have hcc := ((Bool.and_eq_true _ _).mp h).1
            rw [hx] at hcc
            exact hcc

/-- `dropEndWhile` is a sublist of its input. -/
theorem dropEndWhile_sublist (p : Char → Bool) (l : Str) :
    (dropEndWhile p l).Sublist l := by
  induction l with
  | nil => exact List.Sublist.refl []
  | cons c r ih =>
    rw [dropEndWhile_cons]
    by_cases he : (dropEndWhile p r).isEmpty = true
    · rw [if_pos he]
      by_cases hp : p c = true
      · simp [hp]
      · simp only [hp, if_false]
        exact (List.nil_sublist r).cons₂ c
    · rw [if_neg he]
      exact ih.cons₂ c

/-- A character surviving a trim pass was in the input. -/
theorem mem_dropEndWhile (p : Char → Bool) (l : Str) (c : Char)
    (h : c ∈ dropEndWhile p l) : c ∈ l :=
  List.Sublist.mem h (dropEndWhile_sublist p l)

/-- The head of a `dropWhile` output fails the predicate. -/
theorem dropWhile_head_not (p : Char → Bool) (l : Str) (c : Char) (t : Str)
    (h : l.dropWhile p = c :: t) : p c = false := by
  induction l with
  | nil => exact absurd h (by simp)
  | cons a r ih =>
    rw [List.dropWhile_cons] at h
    by_cases hp : p a = true
    · rw [if_pos hp] at h
      exact ih h
    · rw [if_neg hp] at h
      obtain ⟨ha, _⟩ := List.cons.inj h
      rw [ha] at hp
      simpa using hp

/-- The last character of a `dropEndWhile` output fails the predicate. -/
theorem dropEndWhile_last_not (p : Char → Bool) (l : Str) (c : Char)
    (h : (dropEndWhile p l).getLast? = some c) : p c = false := by
  induction l with
  | nil => exact absurd h (by simp [dropEndWhile])
  | cons a r ih =>
    rw [dropEndWhile_cons] at h
    by_cases he : (dropEndWhile p r).isEmpty = true
    · rw [if_pos he] at h
      by_cases hp : p a = true
      · rw [if_pos hp] at h
        exact absurd h (by simp)
      · rw [if_neg hp] at h
        simp only [List.getLast?_singleton, Option.some.injEq] at h
        rw [h] at hp
        simpa using hp
    · rw [if_neg he] at h
      cases hr : dropEndWhile p r with
      | nil => exact absurd (by rw [hr]; rfl) he
      | cons x xs =>
        rw [hr] at h
        rw [List.getLast?_cons_cons] at h
        rw [← hr] at h
        exact ih h

/-- `dropWhile` is the identity when the head fails the predicate. -/
theorem dropWhile_id_of_head (p : Char → Bool) (l : Str)
    (h : ∀ c t, l = c :: t → p c = false) : l.dropWhile p = l := by
  cases l with
  | nil => rfl
  | cons c t =>
    rw [List.dropWhile_cons, if_neg]
    rw [h c t rfl]
    simp

/-- `dropEndWhile` is the identity when the last character fails the
predicate. -/
theorem dropEndWhile_id_of_last (p : Char → Bool) (l : Str)
    (h : ∀ c, l.getLast? = some c → p c = false) : dropEndWhile p l = l := by
  induction l with
  | nil => rfl
  | cons a r ih =>
    rw [dropEndWhile_cons]
    cases r with
    | nil =>
      have := h a (by simp)
      simp [dropEndWhile, this]
    | cons b rs =>
      have hr : dropEndWhile p (b :: rs) = b :: rs := by
        apply ih
        intro c hc
        exact h c (by rw [List.getLast?_cons_cons]; exact hc)
      rw [hr]
      simp

/-- `collapseSp` is the identity on `noDbl` strings. -/
theorem collapseSp_id_of_noDbl (l : Str) (h : noDbl l = true) : collapseSp l = l := by
  induction l with
  | nil => rfl
  | cons c r ih =>
    cases r with
    | nil => rfl
    | cons c₂ r₂ =>
      rw [collapseSp_cons₂, if_neg, ih (noDbl_tail c _ h)]
      have := ((Bool.and_eq_true _ _).mp h).1
      simp only [Bool.not_eq_true'] at this
      simp [this]

/-! Infrastructure: invariants of `normalize_keyword` outputs. -/

/-- Every character of a normalized string is kept or a space. -/
theorem normalize_chars (s : Str) (c : Char) (h : c ∈ normalize_keyword s) :
    isKept c = true ∨ c = ' ' := by
  unfold normalize_keyword at h
  have h1 : c ∈ collapseSp (s.map lowSub) :=
    List.Sublist.mem (mem_dropEndWhile _ _ c h) (List.dropWhile_sublist _)
  have h2 : c ∈ s.map lowSub := mem_collapseSp _ c h1
  obtain ⟨a, _, ha⟩ := List.mem_map.mp h2
  rw [← ha]
  exact lowSub_good a

/-- A normalized string has no two adjacent spaces. -/
theorem normalize_noDbl (s : Str) : noDbl (normalize_keyword s) = true :=
  noDbl_dropEndWhile _ _ (noDbl_dropWhile _ _ (noDbl_collapseSp _))

/-- A normalized string does not start with a space. -/
theorem normalize_head_ne_sp (s : Str) (c : Char) (t : Str)
    (h : normalize_keyword s = c :: t) : (c == ' ') = false := by
  unfold normalize_keyword at h
  cases hL : (collapseSp (s.map lowSub)).dropWhile (· == ' ') with
  | nil =>
    rw [hL] at h
    exact absurd h (by simp [dropEndWhile])
  | cons c₁ t₁ =>
    rw [hL] at h
    rcases dropEndWhile_cons_head (· == ' ') c₁ t₁ with h0 | ⟨t₂, ht₂⟩
    · rw [h0] at h
      exact absurd h (by simp)
    · rw [ht₂] at h
      obtain ⟨hc, _⟩ := List.cons.inj h
      rw [← hc]
      exact dropWhile_head_not (· == ' ') _ c₁ t₁ hL

/-- A normalized string does not end with a space. -/
theorem normalize_last_ne_sp (s : Str) (c : Char)
    (h : (normalize_keyword s).getLast? = some c) : (c == ' ') = false := by
  unfold normalize_keyword at h
  exact dropEndWhile_last_not (· == ' ') _ c h

/-- `normalize_keyword` is idempotent. -/
theorem normalize_keyword_idem (s : Str) :
    normalize_keyword (normalize_keyword s) = normalize_keyword s := by
  have hmap : (normalize_keyword s).map lowSub = normalize_keyword s := by
    have h1 : (normalize_keyword s).map lowSub = (normalize_keyword s).map id :=
      List.map_congr_left (fun c hc => lowSub_fix c (by
        rcases normalize_chars s c hc with h | h
        · exact Or.inl h
        · exact Or.inr h))
    rw [h1, List.map_id]
  show dropEndWhile (· == ' ')
      ((collapseSp ((normalize_keyword s).map lowSub)).dropWhile (· == ' ')) =
    normalize_keyword s
  rw [hmap, collapseSp_id_of_noDbl _ (normalize_noDbl s),
    dropWhile_id_of_head _ _ (fun c t ht => normalize_head_ne_sp s c t ht),
    dropEndWhile_id_of_last _ _ (fun c hc => normalize_last_ne_sp s c hc)]

/-- Kept characters are not whitespace. -/
theorem isKept_not_ws (c : Char) (h : isKept c = true) : isWsChar c = false := by
  cases hw : isWsChar c with
  | false => rfl
  | true =>
    exfalso
    simp only [isWsChar, Bool.or_eq_true, beq_iff_eq] at hw
    simp only [isKept, Bool.or_eq_true, Bool.and_eq_true, decide_eq_true_eq] at h
    rcases hw with ((((hc | hc) | hc) | hc) | hc) | hc <;> subst hc <;> revert h <;> decide

/-- `pyStrip` fixes normalized strings. -/
theorem pyStrip_normalize (s : Str) :
    pyStrip (normalize_keyword s) = normalize_keyword s := by
  unfold pyStrip
  have hdrop : (normalize_keyword s).dropWhile isWsChar = normalize_keyword s := by
    apply dropWhile_id_of_head
    intro c t ht
    rcases normalize_chars s c (ht ▸ List.mem_cons_self c t) with hk | hsp
    · exact isKept_not_ws c hk
    · exfalso
      have := normalize_head_ne_sp s c t ht
      rw [hsp] at this
      simp at this
  rw [hdrop]
  apply dropEndWhile_id_of_last
  intro c hc
  rcases normalize_chars s c (List.mem_of_getLast?_eq_some hc) with hk | hsp
  · exact isKept_not_ws c hk
  · exfalso
    have := normalize_last_ne_sp s c hc
    rw [hsp] at this
    simp at this

/-- The semicolon never survives normalization. -/
theorem normalize_no_semi (s : Str) (c : Char) (h : c ∈ normalize_keyword s) :
    ¬ c = ';' := by
  intro hc
  subst hc
  rcases normalize_chars s ';' h with hk | hsp
  · revert hk
    decide
  · revert hsp
    decide

/-! Infrastructure: `splitSemi` / `joinSemi`. -/

theorem splitSemi_cons (c : Char) (r : Str) :
    splitSemi (c :: r) =
      if c == ';' then [] :: splitSemi r
      else
        match splitSemi r with
        | [] => [[c]]
        | s :: rest => (c :: s) :: rest := rfl

/-- `splitSemi` never returns the empty list. -/
theorem splitSemi_ne_nil (l : Str) : splitSemi l ≠ [] := by
  cases l with
  | nil => simp [splitSemi]
  | cons c r =>
    rw [splitSemi_cons]
    by_cases hc : (c == ';') = true
    · simp [hc]
    · simp only [hc, if_false]
      cases splitSemi r <;> simp

/-- Splitting a semicolon-free string is the identity. -/
theorem splitSemi_no_semi (l : Str) (h : ∀ c ∈ l, ¬ c = ';') : splitSemi l = [l] := by
  induction l with
  | nil => rfl
  | cons c r ih =>
    rw [splitSemi_cons, if_neg, ih (fun x hx => h x (List.mem_cons_of_mem c hx))]
    simp only [beq_iff_eq]
    exact h c (List.mem_cons_self c r)

/-- Splitting around an explicit separator. -/
theorem splitSemi_append (x y : Str) (h : ∀ c ∈ x, ¬ c = ';') :
    splitSemi (x ++ ';' :: y) = x :: splitSemi y := by
  induction x with
  | nil => simp [splitSemi_cons]
  | cons c r ih =>
    have hc : ¬ (c == ';') = true := by
      simp only [beq_iff_eq]
      exact h c (List.mem_cons_self c r)
    rw [List.cons_append, splitSemi_cons, if_neg hc,
      ih (fun a ha => h a (List.mem_cons_of_mem c ha))]

theorem joinSemi_cons₂ (a b : Str) (r : List Str) :
    joinSemi (a :: b :: r) = a ++ ';' :: joinSemi (b :: r) := rfl

/-- Parsing a join of non-empty normalized entries recovers the entries. -/
theorem kwListOf_join (l : List Str)
    (h : ∀ k ∈ l, k ≠ [] ∧ normalize_keyword k = k) :
    kwListOf (joinSemi l) = l := by
  induction l with
  | nil => rfl
  | cons a r ih =>
    obtain ⟨ha0, han⟩ := h a (List.mem_cons_self a r)
    have hsemi : ∀ c ∈ a, ¬ c = ';' := fun c hc =>
      normalize_no_semi a c (by rw [han]; exact hc)
    have hstrip : pyStrip a = a := by
      conv_lhs => rw [← han]
      rw [pyStrip_normalize]
      exact han
    cases r with
    | nil =>
      show kwListOf a = [a]
      unfold kwListOf
      rw [splitSemi_no_semi a hsemi, List.filter_cons,
        if_pos (by rw [hstrip]; exact decide_eq_true ha0)]
      simp only [List.filter_nil, List.map_cons, List.map_nil, han]
    | cons b rs =>
      have ih' := ih (fun k hk => h k (List.mem_cons_of_mem a hk))
      rw [joinSemi_cons₂]
      unfold kwListOf at ih' ⊢
      rw [splitSemi_append _ _ hsemi, List.filter_cons,
        if_pos (by rw [hstrip]; exact decide_eq_true ha0), List.map_cons, han, ih']

/-! Infrastructure: the lexicographic order and `sortDedup`. -/

theorem strLt_cons (a b : Char) (as' bs' : Str) :
    strLt (a :: as') (b :: bs') =
      if a.toNat < b.toNat then true
      else if b.toNat < a.toNat then false else strLt as' bs' := rfl

theorem strLt_irrefl (l : Str) : strLt l l = false := by
  induction l with
  | nil => rfl
  | cons a r ih => rw [strLt_cons, if_neg (by omega), if_neg (by omega)]; exact ih

theorem strLt_trans (a b c : Str) (hab : strLt a b = true) (hbc : strLt b c = true) :
    strLt a c = true := by
  induction a generalizing b c with
  | nil =>
    cases c with
    | nil =>
      cases b with
      | nil => exact hab
      | cons bh bt => exact absurd hbc (by simp [strLt])
    | cons ch ct => rfl
  | cons ah at' ih =>
    cases b with
    | nil => exact absurd hab (by simp [strLt])
    | cons bh bt =>
      cases c with
      | nil => exact absurd hbc (by simp [strLt])
      | cons ch ct =>
        rw [strLt_cons] at hab hbc ⊢
        by_cases h1 : ah.toNat < bh.toNat
        · rw [if_pos h1] at hab
          by_cases h2 : bh.toNat < ch.toNat
          · rw [if_pos (by omega)]
          · rw [if_neg h2] at hbc
            by_cases h3 : ch.toNat < bh.toNat
            · rw [if_pos h3] at hbc
              exact absurd hbc (by simp)
            · rw [if_pos (by omega)]
        · rw [if_neg h1] at hab
          by_cases h1' : bh.toNat < ah.toNat
          · rw [if_pos h1'] at hab
            exact absurd hab (by simp)
          · rw [if_neg h1'] at hab
            by_cases h2 : bh.toNat < ch.toNat
            · rw [if_pos (by omega)]
            · rw [if_neg h2] at hbc
              by_cases h3 : ch.toNat < bh.toNat
              · rw [if_pos h3] at hbc
                exact absurd hbc (by simp)
              · rw [if_neg h3] at hbc
                rw [if_neg (by omega), if_neg (by omega)]
                exact ih bt ct hab hbc

theorem strLt_conn (a b : Str) (h1 : strLt a b = false) (h2 : strLt b a = false) :
    a = b := by
  induction a generalizing b with
  | nil =>
    cases b with
    | nil => rfl
    | cons bh bt => exact absurd h1 (by simp [strLt])
  | cons ah at' ih =>
    cases b with
    | nil => exact absurd h2 (by simp [strLt])
    | cons bh bt =>
      rw [strLt_cons] at h1 h2
      by_cases hc1 : ah.toNat < bh.toNat
      · rw [if_pos hc1] at h1
        exact absurd h1 (by simp)
      · by_cases hc2 : bh.toNat < ah.toNat
        · rw [if_pos hc2] at h2
          exact absurd h2 (by simp)
        · rw [if_neg hc1, if_neg (by omega)] at h1
          rw [if_neg hc2, if_neg (by omega)] at h2
          have hnat : ah.toNat = bh.toNat := by omega
          have hch : ah = bh := Char.ext (UInt32.toNat.inj hnat)
          rw [hch, ih bt h1 h2]

theorem insSorted_cons (x y : Str) (ys : List Str) :
    insSorted x (y :: ys) =
      if strLt x y then x :: y :: ys
      else if x = y then y :: ys else y :: insSorted x ys := rfl

theorem mem_insSorted (x z : Str) (l : List Str) :
    z ∈ insSorted x l ↔ z = x ∨ z ∈ l := by
  induction l with
  | nil => simp [insSorted]
  | cons y ys ih =>
    rw [insSorted_cons]
    by_cases h1 : strLt x y = true
    · simp [h1]
    · rw [if_neg h1]
      by_cases h2 : x = y
      · rw [if_pos h2]
        constructor
        · intro h
          exact Or.inr h
        · rintro (h | h)
          · rw [h, h2]
            exact List.mem_cons_self y ys
          · exact h
      · rw [if_neg h2]
        simp only [List.mem_cons, ih]
        tauto

/-- Sortedness in the strict lexicographic order. -/
abbrev StrSorted (l : List Str) : Prop := List.Pairwise (fun a b => strLt a b = true) l

theorem insSorted_sorted (x : Str) (l : List Str) (h : StrSorted l) :
    StrSorted (insSorted x l) := by
  induction l with
  | nil => exact List.pairwise_singleton _ x
  | cons y ys ih =>
    rw [insSorted_cons]
    by_cases h1 : strLt x y = true
    · rw [if_pos h1]
      refine List.Pairwise.cons ?_ h
      intro z hz
      rcases List.mem_cons.mp hz with hz | hz
      · rw [hz]
        exact h1
      · exact strLt_trans x y z h1 (List.rel_of_pairwise_cons h hz)
    · rw [if_neg h1]
      by_cases h2 : x = y
      · rw [if_pos h2]
        exact h
      · rw [if_neg h2]
        refine List.Pairwise.cons ?_
          (ih (List.Pairwise.sublist (List.sublist_cons_self y ys) h))
        intro z hz
        rcases (mem_insSorted x z ys).mp hz with hz | hz
        · subst hz
          cases h4 : strLt y z with
          | true => rfl
          | false => exact absurd (strLt_conn z y (by simpa using h1) h4) h2
        · exact List.rel_of_pairwise_cons h hz

theorem sortDedup_cons (x : Str) (l : List Str) :
    sortDedup (x :: l) = insSorted x (sortDedup l) := rfl

theorem sortDedup_sorted (l : List Str) : StrSorted (sortDedup l) := by
  induction l with
  | nil => exact List.Pairwise.nil
  | cons x r ih => exact insSorted_sorted x (sortDedup r) ih

theorem mem_sortDedup (z : Str) (l : List Str) : z ∈ sortDedup l ↔ z ∈ l := by
  induction l with
  | nil => exact Iff.rfl
  | cons x r ih =>
    rw [sortDedup_cons, mem_insSorted, ih]
    simp [List.mem_cons]

/-- Inserting a minimum is a plain cons. -/
theorem insSorted_front (x : Str) (l : List Str)
    (h : ∀ y ∈ l, strLt x y = true) : insSorted x l = x :: l := by
  cases l with
  | nil => rfl
  | cons y ys =>
    rw [insSorted_cons, if_pos (h y (List.mem_cons_self y ys))]

/-- `sortDedup` fixes strictly sorted lists. -/
theorem sortDedup_of_sorted (l : List Str) (h : StrSorted l) : sortDedup l = l := by
  induction l with
  | nil => rfl
  | cons x r ih =>
    rw [sortDedup_cons, ih (List.Pairwise.sublist (List.sublist_cons_self x r) h)]
    exact insSorted_front x r (fun y hy => List.rel_of_pairwise_cons h hy)

theorem sortDedup_idem (l : List Str) : sortDedup (sortDedup l) = sortDedup l :=
  sortDedup_of_sorted _ (sortDedup_sorted l)

/-! Infrastructure: the keywords-column invariant. -/

/-- The invariant of a stored `keywords` column: it is exactly the
semicolon-join of the lexicographically sorted deduplication of its own parse,
and every parsed entry is non-empty.  (Entries of a parse are
`normalize_keyword` images, so they are also normalization fixpoints.) -/
abbrev KwInv (s : Str) : Prop :=
  joinSemi (sortDedup (kwListOf s)) = s ∧ ∀ k ∈ kwListOf s, k ≠ []

/-- Entries of any parsed keyword column are normalization fixpoints. -/
theorem kwListOf_norm (s : Str) (k : Str) (h : k ∈ kwListOf s) :
    normalize_keyword k = k := by
  unfold kwListOf at h
  obtain ⟨a, _, ha⟩ := List.mem_map.mp h
  rw [← ha]
  exact normalize_keyword_idem a

/-- The parse of a merged column: `merge_keywords` produces an invariant
column whose entry set is the old entries plus the normalized new keyword
(when non-empty). -/
theorem merge_keywords_KwInv (s kw : Str) (hs : KwInv s) :
    KwInv (merge_keywords s kw) := by
  obtain ⟨hjoin, hne⟩ := hs
  unfold merge_keywords
  set old_list := kwListOf s with hol
  set new_norm := normalize_keyword kw with hnn
  set lst := if new_norm ≠ [] ∧ ¬ old_list.contains new_norm
    then old_list ++ [new_norm] else old_list with hlst
  have hlst_props : ∀ k ∈ lst, k ≠ [] ∧ normalize_keyword k = k := by
    intro k hk
    rw [hlst] at hk
    by_cases hcond : new_norm ≠ [] ∧ ¬ old_list.contains new_norm
    · rw [if_pos hcond] at hk
      rcases List.mem_append.mp hk with hk | hk
      · exact ⟨hne k hk, kwListOf_norm s k hk⟩
      · rcases List.mem_singleton.mp hk with rfl
        exact ⟨hcond.1, hnn ▸ normalize_keyword_idem kw⟩
    · rw [if_neg hcond] at hk
      exact ⟨hne k hk, kwListOf_norm s k hk⟩
  have hdprops : ∀ k ∈ sortDedup lst, k ≠ [] ∧ normalize_keyword k = k :=
    fun k hk => hlst_props k ((mem_sortDedup k lst).mp hk)
  have hparse : kwListOf (joinSemi (sortDedup lst)) = sortDedup lst :=
    kwListOf_join (sortDedup lst) hdprops
  constructor
  · rw [hparse, sortDedup_idem]
  · intro k hk
    rw [hparse] at hk
    exact (hdprops k hk).1

/-- Merging an already-present keyword leaves the column unchanged. -/
theorem merge_keywords_self (s kw : Str) (hs : KwInv s)
    (h : normalize_keyword kw ∈ kwListOf s) : merge_keywords s kw = s := by
  have hcon : (kwListOf s).contains (normalize_keyword kw) = true := by
    simpa using h
  show joinSemi (sortDedup
      (if normalize_keyword kw ≠ [] ∧ ¬ (kwListOf s).contains (normalize_keyword kw) = true
       then kwListOf s ++ [normalize_keyword kw] else kwListOf s)) = s
  rw [if_neg (fun hc => hc.2 hcon)]
  exact hs.1

/-- A single normalized keyword satisfies the column invariant (this is the
insert branch of `save_or_update_db`). -/
theorem KwInv_norm_single (kw : Str) : KwInv (normalize_keyword kw) := by
  by_cases h : normalize_keyword kw = []
  · rw [h]
    exact ⟨rfl, by intro k hk; exact absurd hk (by simp [kwListOf, splitSemi, pyStrip, dropEndWhile])⟩
  · have hparse : kwListOf (normalize_keyword kw) = [normalize_keyword kw] := by
      have := kwListOf_join [normalize_keyword kw]
        (by intro k hk
            rcases List.mem_singleton.mp hk with rfl
            exact ⟨h, normalize_keyword_idem kw⟩)
      simpa [joinSemi] using this
    constructor
    · rw [hparse]
      rfl
    · intro k hk
      rw [hparse] at hk
      rcases List.mem_singleton.mp hk with rfl
      exact h

/-- The empty column satisfies the invariant. -/
theorem KwInv_nil : KwInv [] :=
  ⟨rfl, by intro k hk; exact absurd hk (by simp [kwListOf, splitSemi, pyStrip, dropEndWhile])⟩

/-- Parsing a single non-empty normalized keyword. -/
theorem kwListOf_norm_single (kw : Str) (h : normalize_keyword kw ≠ []) :
    kwListOf (normalize_keyword kw) = [normalize_keyword kw] := by
  have := kwListOf_join [normalize_keyword kw]
    (by intro k hk
        rcases List.mem_singleton.mp hk with rfl
        exact ⟨h, normalize_keyword_idem kw⟩)
  simpa [joinSemi] using this

/-- `save_or_update_db` preserves the keywords-column invariant of every
row. -/
theorem save_or_update_db_KwInv (t : Table)
    (official_name new_keyword address : Str) (lat lng : Option ℚ)
    (place_id notes now : Str)
    (hall : ∀ r ∈ t.rows, KwInv r.keywords) :
    ∀ r ∈ (save_or_update_db t official_name new_keyword address lat lng
      place_id notes now).2.rows, KwInv r.keywords := by
  intro r hr
  unfold save_or_update_db at hr
  cases hf : t.rows.find? (fun r => decide (r.name = official_name)) with
  | some old =>
    simp only [hf] at hr
    obtain ⟨x, hx, hfx⟩ := List.mem_map.mp hr
    by_cases hid : x.id = old.id
    · rw [if_pos hid] at hfx
      rw [← hfx]
      exact merge_keywords_KwInv old.keywords new_keyword
        (hall old (List.mem_of_find?_eq_some hf))
    · rw [if_neg hid] at hfx
      rw [← hfx]
      exact hall x hx
  | none =>
    simp only [hf] at hr
    rcases List.mem_append.mp hr with hr | hr
    · exact hall r hr
    · rcases List.mem_singleton.mp hr with rfl
      exact KwInv_norm_single new_keyword

/-- `_append_keyword_to_id` preserves the keywords-column invariant of every
row. -/
theorem append_keyword_to_id_KwInv (t : Table) (rec_id : Nat) (new_kw now : Str)
    (hall : ∀ r ∈ t.rows, KwInv r.keywords) :
    ∀ r ∈ (append_keyword_to_id t rec_id new_kw now).rows, KwInv r.keywords := by
  intro r hr
  unfold append_keyword_to_id at hr
  cases hf : t.rows.find? (fun r => decide (r.id = rec_id)) with
  | none =>
    simp only [hf] at hr
    exact hall r hr
  | some x =>
    simp only [hf] at hr
    by_cases hch : merge_keywords x.keywords new_kw ≠ x.keywords
    · rw [if_pos hch] at hr
      obtain ⟨y, hy, hfy⟩ := List.mem_map.mp hr
      by_cases hid : y.id = rec_id
      · rw [if_pos hid] at hfy
        rw [← hfy]
        exact merge_keywords_KwInv x.keywords new_kw
          (hall x (List.mem_of_find?_eq_some hf))
      · rw [if_neg hid] at hfy
        rw [← hfy]
        exact hall y hy
    · rw [if_neg hch] at hr
      exact hall r hr

/-- Appending an already-present keyword writes nothing at all. -/
theorem append_keyword_to_id_noop (t : Table) (rec_id : Nat) (new_kw now : Str)
    (x : Rec) (hf : t.rows.find? (fun r => decide (r.id = rec_id)) = some x)
    (hinv : KwInv x.keywords)
    (hmem : normalize_keyword new_kw ∈ kwListOf x.keywords) :
    append_keyword_to_id t rec_id new_kw now = t := by
  unfold append_keyword_to_id
  simp only [hf]
  rw [if_neg]
  intro hne
  exact hne (merge_keywords_self x.keywords new_kw hinv hmem)

/-- Sample row used by concrete witnesses. -/
def wRec : Rec :=
  { id := 1, name := str "Q", keywords := str "q7", street := [], city := [],
    address := [], lat := none, lng := none, place_id := [],
    created_at := str "c", updated_at := str "c", notes := [] }

/-- Sample table used by concrete witnesses. -/
def wT : Table := { rows := [wRec], nextId := 2 }

/-- C10: records maintained only through `save_or_update_db` and
`_append_keyword_to_id` keep a `keywords` column that is the semicolon-join of
the lexicographically sorted, duplicate-free list of its normalized entries
(every entry non-empty); consequently `_append_keyword_to_id` with a keyword
whose normalized form is already present performs no write at all — the table,
including the `keywords` and `updated_at` columns, is unchanged. -/
theorem C10_keywords_invariant :
    (∀ (t : Table) (official_name new_keyword address : Str) (lat lng : Option ℚ)
       (place_id notes now : Str),
       (∀ r ∈ t.rows, KwInv r.keywords) →
       ∀ r ∈ (save_or_update_db t official_name new_keyword address lat lng
         place_id notes now).2.rows, KwInv r.keywords) ∧
    (∀ (t : Table) (rec_id : Nat) (new_kw now : Str),
       (∀ r ∈ t.rows, KwInv r.keywords) →
       ∀ r ∈ (append_keyword_to_id t rec_id new_kw now).rows, KwInv r.keywords) ∧
    (∀ (t : Table) (rec_id : Nat) (new_kw now : Str) (x : Rec),
       t.rows.find? (fun r => decide (r.id = rec_id)) = some x →
       KwInv x.keywords →
       normalize_keyword new_kw ∈ kwListOf x.keywords →
       append_keyword_to_id t rec_id new_kw now = t) :=
  ⟨save_or_update_db_KwInv, append_keyword_to_id_KwInv, append_keyword_to_id_noop⟩

/-- Witness for C10: a stored row holding keyword `"q7"` absorbs the re-append
of `"Q7!"` (same normalized form) with no write. -/
theorem C10_keywords_invariant_witness :
    (wT.rows.find? (fun r => decide (r.id = 1)) = some wRec) ∧
    KwInv wRec.keywords ∧
    normalize_keyword (str "Q7!") ∈ kwListOf wRec.keywords ∧
    append_keyword_to_id wT 1 (str "Q7!") (str "t2") = wT :=
  ⟨by decide, by decide, by decide,
   C10_keywords_invariant.2.2 wT 1 (str "Q7!") (str "t2") wRec
     (by decide) (by decide) (by decide)⟩

/-- C1: the scored-precise stage accepts the top-ranked record if and only if
its best per-keyword jaccard is at least `0.80`, its best edit similarity is
at least `0.92`, and its score exceeds the second best score (0 when it is
alone) by at least `0.05`; on the decision core, the boundary triple
`(j, e) = (0.80, 0.92)` alone in the pool is accepted, `j = 0.79` is rejected,
and two candidates scoring `0.90` and `0.88` (margin `0.02`) are both
rejected, so `find_best_in_db_precise` yields `none` and resolution falls
through to the provider stage. -/
theorem C1_precise_threshold :
    (∀ (query : Str) (rows : List Rec) (top : (ℚ × ℚ × ℚ) × Rec)
       (rest : List ((ℚ × ℚ × ℚ) × Rec)),
       sortByScoreDesc (scoredOf query rows) = top :: rest →
       (find_best_in_db_precise query rows = some top.2 ↔
         top.1.2.1 ≥ (0.80 : ℚ) ∧ top.1.2.2 ≥ (0.92 : ℚ) ∧
           top.1.1 - secondScore rest ≥ (0.05 : ℚ))) ∧
    (∀ r : Rec, precise_core [((0.848, 0.80, 0.92), r)] = some r) ∧
    (∀ r : Rec, precise_core [((0.842, 0.79, 0.92), r)] = none) ∧
    (∀ r₁ r₂ : Rec,
      precise_core [((0.90, 0.86, 0.96), r₁), ((0.88, 0.86, 0.96), r₂)] = none) := by
  refine ⟨?_, ?_, ?_, ?_⟩
  · intro query rows top rest hsort
    have hrows : rows.isEmpty = false := by
      cases rows with
      | nil => exact absurd hsort (by simp [scoredOf, sortByScoreDesc])
      | cons a l => rfl
    unfold find_best_in_db_precise
    rw [hrows]
    simp only [Bool.false_eq_true, if_false]
    unfold precise_core
    rw [hsort]
    show (if top.1.2.1 ≥ (0.80 : ℚ) ∧ top.1.2.2 ≥ (0.92 : ℚ) ∧
        top.1.1 - secondScore rest ≥ (0.05 : ℚ) then some top.2 else none) = some top.2 ↔ _
    by_cases hc : top.1.2.1 ≥ (0.80 : ℚ) ∧ top.1.2.2 ≥ (0.92 : ℚ) ∧
        top.1.1 - secondScore rest ≥ (0.05 : ℚ)
    · rw [if_pos hc]
      simp [hc]
    · rw [if_neg hc]
      simp [hc]
  · intro r
    show (if (0.80 : ℚ) ≥ (0.80 : ℚ) ∧ (0.92 : ℚ) ≥ (0.92 : ℚ) ∧
        (0.848 : ℚ) - secondScore [] ≥ (0.05 : ℚ) then some r else none) = some r
    rw [if_pos (by norm_num [secondScore])]
  · intro r
    show (if (0.79 : ℚ) ≥ (0.80 : ℚ) ∧ (0.92 : ℚ) ≥ (0.92 : ℚ) ∧
        (0.842 : ℚ) - secondScore [] ≥ (0.05 : ℚ) then some r else none) = none
    rw [if_neg (by norm_num)]
  · intro r₁ r₂
    show precise_core [((0.90, 0.86, 0.96), r₁), ((0.88, 0.86, 0.96), r₂)] = none
    have hs : sortByScoreDesc [((0.90, 0.86, 0.96), r₁), ((0.88, 0.86, 0.96), r₂)] =
        [((0.90, 0.86, 0.96), r₁), ((0.88, 0.86, 0.96), r₂)] := by
      show insDesc ((0.90, 0.86, 0.96), r₁) (insDesc ((0.88, 0.86, 0.96), r₂) []) = _
      show insDesc ((0.90, 0.86, 0.96), r₁) [((0.88, 0.86, 0.96), r₂)] = _
      unfold insDesc
      rw [if_pos (by norm_num)]
    unfold precise_core
    rw [hs]
    show (if (0.86 : ℚ) ≥ (0.80 : ℚ) ∧ (0.96 : ℚ) ≥ (0.92 : ℚ) ∧
        (0.90 : ℚ) - secondScore [((0.88, 0.86, 0.96), r₂)] ≥ (0.05 : ℚ)
      then some r₁ else none) = none
    rw [if_neg (by norm_num [secondScore])]

/-- Witness for C1: a single stored record whose keyword equals the query has
metrics `(1, 1, 1)` and is accepted by the thresholds. -/
theorem C1_precise_threshold_witness :
    sortByScoreDesc (scoredOf (str "q7") [wRec]) = [((1, 1, 1), wRec)] ∧
    (find_best_in_db_precise (str "q7") [wRec] = some wRec ↔
      (1 : ℚ) ≥ (0.80 : ℚ) ∧ (1 : ℚ) ≥ (0.92 : ℚ) ∧
        (1 : ℚ) - secondScore [] ≥ (0.05 : ℚ)) :=
  ⟨by decide!, C1_precise_threshold.1 (str "q7") [wRec] ((1, 1, 1), wRec) [] (by decide!)⟩

/-- Sample stored record with a full address, used by the C2 theorems. -/
def cRecX : Rec :=
  { id := 1, name := str "Hotel X", keywords := str "hotel x",
    street := str "Damrak 1", city := str "Amsterdam",
    address := str "Damrak 1, Amsterdam", lat := some 1, lng := some 2,
    place_id := [], created_at := str "c", updated_at := str "c", notes := [] }

/-- Sample table holding `cRecX`. -/
def cTX : Table := { rows := [cRecX], nextId := 2 }

/-- Counterexample to C2 as stated: upserting the existing name `"Hotel X"`
with an empty address string does NOT keep the stored address — the update
overwrites `address`, `street` and `city` with the empty values. -/
theorem C2_counterexample :
    (save_or_update_db cTX (str "Hotel X") (str "hotel x2") [] none none
        [] [] (str "t9")).2.rows.map (fun r => (r.address, r.street, r.city)) =
      [([], [], [])] ∧
    cTX.rows.map (fun r => (r.address, r.street, r.city)) =
      [(str "Damrak 1, Amsterdam", str "Damrak 1", str "Amsterdam")] :=
  ⟨by decide!, by decide⟩

/-- C2 (amended): `save_or_update_db` on an existing name merges rather than
duplicates — the row count is unchanged and the returned id is the old id, and
the matched row now carries the merged keywords; but `address`/`street`/`city`
are ALWAYS overwritten from the (cleaned) new value, even when it is empty,
and `latitude`/`longitude` keep the old value exactly when the new one is
absent or zero (Python `lat or old_lat`), otherwise take the new value. -/
theorem C2_upsert_merge (t : Table) (official_name new_keyword address : Str)
    (lat lng : Option ℚ) (place_id notes now : Str) (old : Rec)
    (hf : t.rows.find? (fun r => decide (r.name = official_name)) = some old) :
    (save_or_update_db t official_name new_keyword address lat lng
        place_id notes now).2.rows.length = t.rows.length ∧
    (save_or_update_db t official_name new_keyword address lat lng
        place_id notes now).1.id = old.id ∧
    ∃ r', r' ∈ (save_or_update_db t official_name new_keyword address lat lng
        place_id notes now).2.rows ∧ r'.id = old.id ∧
      r'.keywords = merge_keywords old.keywords new_keyword ∧
      r'.address = clean_country_suffix address ∧
      r'.street = (split_address (clean_country_suffix address)).1 ∧
      r'.city = (split_address (clean_country_suffix address)).2 ∧
      r'.lat = pyOrQ lat old.lat ∧
      r'.lng = pyOrQ lng old.lng ∧
      r'.notes = notes ∧
      r'.updated_at = now := by
  unfold save_or_update_db
  simp only [hf]
  refine ⟨List.length_map _ _, trivial, ?_⟩
  have hmem := List.mem_of_find?_eq_some hf
  refine ⟨_, List.mem_map_of_mem _ hmem, ?_⟩
  rw [if_pos rfl]
  refine ⟨rfl, rfl, ?_, ?_, ?_, rfl, rfl, rfl, rfl⟩
  · show clean_country_suffix address = clean_country_suffix address
    rfl
  · show (split_address (clean_country_suffix address)).1 =
      (split_address (clean_country_suffix address)).1
    rfl
  · show (split_address (clean_country_suffix address)).2 =
      (split_address (clean_country_suffix address)).2
    rfl

/-- Witness for C2 (amended) at the concrete table `cTX`. -/
theorem C2_upsert_merge_witness :
    (cTX.rows.find? (fun r => decide (r.name = str "Hotel X")) = some cRecX) ∧
    ((save_or_update_db cTX (str "Hotel X") (str "hotel x2") [] none none
        [] [] (str "t9")).2.rows.length = cTX.rows.length ∧
     (save_or_update_db cTX (str "Hotel X") (str "hotel x2") [] none none
        [] [] (str "t9")).1.id = cRecX.id ∧
     ∃ r', r' ∈ (save_or_update_db cTX (str "Hotel X") (str "hotel x2") []
        none none [] [] (str "t9")).2.rows ∧ r'.id = cRecX.id ∧
       r'.keywords = merge_keywords cRecX.keywords (str "hotel x2") ∧
       r'.address = clean_country_suffix [] ∧
       r'.street = (split_address (clean_country_suffix [])).1 ∧
       r'.city = (split_address (clean_country_suffix [])).2 ∧
       r'.lat = pyOrQ none cRecX.lat ∧
       r'.lng = pyOrQ none cRecX.lng ∧
       r'.notes = [] ∧
       r'.updated_at = str "t9") :=
  ⟨by decide,
   C2_upsert_merge cTX (str "Hotel X") (str "hotel x2") [] none none
     [] [] (str "t9") cRecX (by decide)⟩

/-- The empty table (fresh store). -/
def emptyT : Table := { rows := [], nextId := 1 }

/-- Counterexample to C3 as stated: inserting a fresh record with absent
coordinates stores and returns `0.0`, not an absent (null) coordinate. -/
theorem C3_counterexample :
    (save_or_update_db emptyT (str "Cafe X") (str "cafe x")
        (str "Some Street 1") none none [] [] (str "t1")).1.lat = some 0 ∧
    (save_or_update_db emptyT (str "Cafe X") (str "cafe x")
        (str "Some Street 1") none none [] [] (str "t1")).1.lng = some 0 ∧
    (save_or_update_db emptyT (str "Cafe X") (str "cafe x")
        (str "Some Street 1") none none [] [] (str "t1")).2.rows.map
      (fun r => (r.lat, r.lng)) = [(some 0, some 0)] ∧
    some (0 : ℚ) ≠ (none : Option ℚ) :=
  ⟨by decide!, by decide!, by decide!, by decide⟩

/-- C3 (amended): when `save_or_update_db` inserts a fresh record and the
provider returned no coordinate (`lat = lng = None`), the stored and returned
latitude and longitude are the default numeric `0.0` (Python `lat or 0.0`),
not an absent value. -/
theorem C3_insert_default_zero (t : Table)
    (official_name new_keyword address place_id notes now : Str)
    (hf : t.rows.find? (fun r => decide (r.name = official_name)) = none) :
    (save_or_update_db t official_name new_keyword address none none
        place_id notes now).1.lat = some 0 ∧
    (save_or_update_db t official_name new_keyword address none none
        place_id notes now).1.lng = some 0 ∧
    (save_or_update_db t official_name new_keyword address none none
        place_id notes now).1.id = t.nextId ∧
    ∃ nr, (save_or_update_db t official_name new_keyword address none none
        place_id notes now).2.rows = t.rows ++ [nr] ∧
      nr.id = t.nextId ∧ nr.lat = some 0 ∧ nr.lng = some 0 := by
  unfold save_or_update_db
  rw [hf]
  exact ⟨rfl, rfl, rfl, _, rfl, rfl, rfl, rfl⟩

/-- Witness for C3 (amended) at the empty table. -/
theorem C3_insert_default_zero_witness :
    (emptyT.rows.find? (fun r => decide (r.name = str "Cafe X")) = none) ∧
    ((save_or_update_db emptyT (str "Cafe X") (str "cafe x")
        (str "Some Street 1") none none [] [] (str "t1")).1.lat = some 0 ∧
     (save_or_update_db emptyT (str "Cafe X") (str "cafe x")
        (str "Some Street 1") none none [] [] (str "t1")).1.lng = some 0 ∧
     (save_or_update_db emptyT (str "Cafe X") (str "cafe x")
        (str "Some Street 1") none none [] [] (str "t1")).1.id = emptyT.nextId ∧
     ∃ nr, (save_or_update_db emptyT (str "Cafe X") (str "cafe x")
        (str "Some Street 1") none none [] [] (str "t1")).2.rows =
          emptyT.rows ++ [nr] ∧
       nr.id = emptyT.nextId ∧ nr.lat = some 0 ∧ nr.lng = some 0) :=
  ⟨by decide,
   C3_insert_default_zero emptyT (str "Cafe X") (str "cafe x")
     (str "Some Street 1") [] [] (str "t1") (by decide)⟩

/-- C4 evaluated at the failing input: the provider returns one candidate
(`"Dam Square"`, with an address but no coordinates), yet the record persisted
and returned by `search_address_near` is the synthetic
`{name: query, address: ""}` — because the source rebinds `cands` to the
(empty) finite-distance filter before its `cands[0] if cands else ...`
fallback, the first scraped candidate can never be chosen there.  The `notes`
provenance stamp is still written. -/
theorem C4_divergence :
    ((search_address_near (fun _ _ _ _ => 0) emptyT (str "dam sq")
        (52.37 : ℚ) (4.89 : ℚ)
        [{ name := str "Dam Square", address := str "Dam, Amsterdam",
           lat := none, lng := none }]
        (str "t1")).1.map (fun r => (r.name, r.address, r.notes)) =
      some (str "dam sq", [], notesStamp 52.37 4.89)) ∧
    ((search_address_near (fun _ _ _ _ => 0) emptyT (str "dam sq")
        (52.37 : ℚ) (4.89 : ℚ)
        [{ name := str "Dam Square", address := str "Dam, Amsterdam",
           lat := none, lng := none }]
        (str "t1")).2.rows.map (fun r => r.name) = [str "dam sq"]) ∧
    str "dam sq" ≠ str "Dam Square" :=
  ⟨by decide!, by decide!, by decide⟩

/-- `search_address` when both local stages miss and the provider succeeds:
the provider result is persisted. -/
theorem search_address_miss (t : Table) (q : Str) (f : Fetch) (now : Str)
    (hq : q ≠ [])
    (hex : find_in_db_exact_keywords_only q t.rows = none)
    (hpr : find_best_in_db_precise q t.rows = none) :
    search_address t q (some f) now =
      (some (save_or_update_db t (if f.official_name = [] then q
          else f.official_name) q f.address f.lat f.lng [] [] now).1,
       (save_or_update_db t (if f.official_name = [] then q
          else f.official_name) q f.address f.lat f.lng [] [] now).2) := by
  unfold search_address
  rw [if_neg hq, hex, hpr]

/-- `search_address` on an exact-keyword hit: the hit is returned for every
provider, and the only write is the keyword append. -/
theorem search_address_exact_hit (t : Table) (q : Str) (prov : Option Fetch)
    (now : Str) (r : Rec) (hq : q ≠ [])
    (hex : find_in_db_exact_keywords_only q t.rows = some r) :
    search_address t q prov now =
      (some r, if r.id ≠ 0 then append_keyword_to_id t r.id q now else t) := by
  unfold search_address
  rw [if_neg hq, hex]

/-- The record the first resolution of `q` against an empty store inserts
(provider result `f`, timestamp `n1`). -/
def firstSaved (q : Str) (f : Fetch) (n1 : Str) : Rec :=
  { id := 1, name := if f.official_name = [] then q else f.official_name,
    keywords := normalize_keyword q,
    street := (split_address (clean_country_suffix f.address)).1,
    city := (split_address (clean_country_suffix f.address)).2,
    address := clean_country_suffix f.address,
    lat := pyOrQ f.lat (some 0), lng := pyOrQ f.lng (some 0),
    place_id := [], created_at := n1, updated_at := n1, notes := [] }

/-- C5: starting from the empty store, resolving the same query twice (the
provider returning the same place) yields record id 1 both times, and after
the second call the store holds exactly one record whose parsed keyword list
is exactly the normalized query — the second resolution appends no
duplicate. -/
theorem C5_idempotent_resolution (q : Str) (f : Fetch) (n1 n2 : Str)
    (hq : q ≠ []) (hn : normalize_keyword q ≠ []) :
    ((search_address emptyT q (some f) n1).1.map Rec.id = some 1) ∧
    ((search_address (search_address emptyT q (some f) n1).2 q (some f) n2).1.map
      Rec.id = some 1) ∧
    ∃ row, (search_address (search_address emptyT q (some f) n1).2 q
        (some f) n2).2.rows = [row] ∧
      kwListOf row.keywords = [normalize_keyword q] := by
  have e1 : search_address emptyT q (some f) n1 =
      (some { firstSaved q f n1 with created_at := [], updated_at := [] },
       { rows := [firstSaved q f n1], nextId := 2 }) := by
    rw [search_address_miss emptyT q f n1 hq rfl rfl]
    rfl
  have hcon : (kwListOf (firstSaved q f n1).keywords).contains
      (normalize_keyword q) = true := by
    show (kwListOf (normalize_keyword q)).contains (normalize_keyword q) = true
    rw [kwListOf_norm_single q hn]
    simp
  have hex2 : find_in_db_exact_keywords_only q
      (search_address emptyT q (some f) n1).2.rows = some (firstSaved q f n1) := by
    rw [e1]
    exact List.find?_cons_of_pos _ hcon
  have e2 : search_address (search_address emptyT q (some f) n1).2 q
      (some f) n2 =
      (some (firstSaved q f n1),
       if (firstSaved q f n1).id ≠ 0 then
         append_keyword_to_id (search_address emptyT q (some f) n1).2
           (firstSaved q f n1).id q n2
       else (search_address emptyT q (some f) n1).2) :=
    search_address_exact_hit _ q (some f) n2 _ hq hex2
  have hnoop : append_keyword_to_id (search_address emptyT q (some f) n1).2
      (firstSaved q f n1).id q n2 = (search_address emptyT q (some f) n1).2 := by
    apply append_keyword_to_id_noop _ _ _ _ (firstSaved q f n1)
    · rw [e1]
      exact List.find?_cons_of_pos _ rfl
    · show KwInv (normalize_keyword q)
      exact KwInv_norm_single q
    · show normalize_keyword q ∈ kwListOf (normalize_keyword q)
      rw [kwListOf_norm_single q hn]
      exact List.mem_singleton.mpr rfl
  refine ⟨?_, ?_, ?_⟩
  · rw [e1]
    rfl
  · rw [e2]
    rfl
  · refine ⟨firstSaved q f n1, ?_, ?_⟩
    · rw [e2]
      show (if (firstSaved q f n1).id ≠ 0 then
          append_keyword_to_id (search_address emptyT q (some f) n1).2
            (firstSaved q f n1).id q n2
        else (search_address emptyT q (some f) n1).2).rows = [firstSaved q f n1]
      rw [if_pos (show (firstSaved q f n1).id ≠ 0 from Nat.one_ne_zero), hnoop, e1]
    · show kwListOf (normalize_keyword q) = [normalize_keyword q]
      exact kwListOf_norm_single q hn

/-- Sample provider result used by the C5 witness. -/
def wFetch : Fetch :=
  { official_name := str "Q Seven", address := str "Z 1",
    lat := some 1, lng := some 2 }

/-- Witness for C5 at the concrete query `"q7"`. -/
theorem C5_idempotent_resolution_witness :
    (str "q7" ≠ [] ∧ normalize_keyword (str "q7") ≠ []) ∧
    (((search_address emptyT (str "q7") (some wFetch) (str "t1")).1.map Rec.id =
        some 1) ∧
     ((search_address (search_address emptyT (str "q7") (some wFetch)
        (str "t1")).2 (str "q7") (some wFetch) (str "t2")).1.map Rec.id =
        some 1) ∧
     ∃ row, (search_address (search_address emptyT (str "q7") (some wFetch)
        (str "t1")).2 (str "q7") (some wFetch) (str "t2")).2.rows = [row] ∧
       kwListOf row.keywords = [normalize_keyword (str "q7")]) :=
  ⟨⟨by decide, by decide⟩,
   C5_idempotent_resolution (str "q7") wFetch (str "t1") (str "t2")
     (by decide) (by decide)⟩

/-- C6: when the normalized query is contained exactly in some stored record's
keyword list, `search_address` returns the first such record from the
exact-keyword stage.  The provider argument is universally quantified and
absent from the conclusion: the external provider is never consulted; and the
returned record is the exact stage's own result, so the scored-precise ranking
does not decide the outcome. -/
theorem C6_exact_beats_fuzzy (t : Table) (q : Str) (prov : Option Fetch)
    (now : Str) (r : Rec) (hq : q ≠ [])
    (hf : t.rows.find? (fun rec =>
      (kwListOf rec.keywords).contains (normalize_keyword q)) = some r) :
    find_in_db_exact_keywords_only q t.rows = some r ∧
    (search_address t q prov now).1 = some r := by
  refine ⟨hf, ?_⟩
  rw [search_address_exact_hit t q prov now r hq hf]

/-- First record of the C6 witness: holds the exact keyword `"park hotel"`. -/
def pRec1 : Rec :=
  { id := 1, name := str "Park Hotel", keywords := str "park hotel",
    street := [], city := [], address := [], lat := none, lng := none,
    place_id := [], created_at := [], updated_at := [], notes := [] }

/-- Second record of the C6 witness: a merely similar keyword. -/
def pRec2 : Rec :=
  { id := 2, name := str "Parc Hotel", keywords := str "parc hotel",
    street := [], city := [], address := [], lat := none, lng := none,
    place_id := [], created_at := [], updated_at := [], notes := [] }

/-- Table of the C6 witness. -/
def pT : Table := { rows := [pRec1, pRec2], nextId := 3 }

/-- Witness for C6: the case-variant query `"Park Hotel"` returns the
exact-keyword record `pRec1`, with a failing provider (`none`). -/
theorem C6_exact_beats_fuzzy_witness :
    (str "Park Hotel" ≠ [] ∧
     pT.rows.find? (fun rec =>
       (kwListOf rec.keywords).contains (normalize_keyword (str "Park Hotel"))) =
         some pRec1) ∧
    (find_in_db_exact_keywords_only (str "Park Hotel") pT.rows = some pRec1 ∧
     (search_address pT (str "Park Hotel") none (str "t1")).1 = some pRec1) :=
  ⟨⟨by decide, by decide⟩,
   C6_exact_beats_fuzzy pT (str "Park Hotel") none (str "t1") pRec1
     (by decide) (by decide)⟩

/-- Decidable check: no two rows share a `(hotel_id, pickup_id)` pair. -/
def noPairDup : List LinkRow → Bool
  | [] => true
  | r :: rest =>
    rest.all (fun x =>
      decide (¬ (x.hotel_id = r.hotel_id ∧ x.pickup_id = r.pickup_id))) &&
    noPairDup rest

/-- `noPairDup` as a `Pairwise` statement. -/
theorem noPairDup_iff_pairwise (l : List LinkRow) :
    noPairDup l = true ↔
      l.Pairwise (fun r x => ¬ (x.hotel_id = r.hotel_id ∧ x.pickup_id = r.pickup_id)) := by
  induction l with
  | nil => simp [noPairDup]
  | cons r rest ih =>
    show (rest.all _ && noPairDup rest) = true ↔ _
    rw [Bool.and_eq_true, List.pairwise_cons, ih, List.all_eq_true]
    constructor
    · rintro ⟨h1, h2⟩
      exact ⟨fun x hx => of_decide_eq_true (h1 x hx), h2⟩
    · rintro ⟨h1, h2⟩
      exact ⟨fun x hx => decide_eq_true (h1 x hx), h2⟩

/-- The link-write core preserves pair uniqueness. -/
theorem upsert_link_noPairDup (lt : LinkTable) (hid : Nat) (hname : Str)
    (pid : Nat) (pname : Str) (priority : Int) (notes now : Str)
    (h : noPairDup lt.rows = true) :
    noPairDup (upsert_link lt hid hname pid pname priority notes now).2.rows = true := by
  unfold upsert_link
  cases hf : lt.rows.find? (fun row => decide (row.hotel_id = hid ∧ row.pickup_id = pid)) with
  | some row =>
    simp only
    rw [noPairDup_iff_pairwise] at h ⊢
    have hmap : ∀ x : LinkRow,
        ((fun x => if x.id = row.id then
            { x with hotel_name := hname, pickup_name := pname,
                     priority := priority, notes := notes, updated_at := now }
          else x) x).hotel_id = x.hotel_id ∧
        ((fun x => if x.id = row.id then
            { x with hotel_name := hname, pickup_name := pname,
                     priority := priority, notes := notes, updated_at := now }
          else x) x).pickup_id = x.pickup_id := by
      intro x
      by_cases hx : x.id = row.id <;> simp [hx]
    refine List.Pairwise.map _ ?_ h
    intro a b hab
    rw [(hmap b).1, (hmap b).2, (hmap a).1, (hmap a).2]
    exact hab
  | none =>
    simp only
    rw [noPairDup_iff_pairwise] at h ⊢
    rw [List.pairwise_append]
    refine ⟨h, List.pairwise_singleton _ _, ?_⟩
    intro a ha y hy
    rcases List.mem_singleton.mp hy with rfl
    have := List.find?_eq_none.mp hf a ha
    intro hcon
    exact this (decide_eq_true ⟨hcon.1.symm, hcon.2.symm⟩)

/-- `link_hotel_to_pickup` preserves pair uniqueness of the link table. -/
theorem link_noPairDup (s : Sys) (hq pq : Str) (priority : Int) (notes : Str)
    (cim : Bool) (hProv pProv : Option Fetch) (now : Str)
    (h : noPairDup s.links.rows = true) :
    noPairDup (link_hotel_to_pickup s hq pq priority notes cim hProv pProv
      now).2.links.rows = true := by
  unfold link_hotel_to_pickup
  cases hh : (resolve_side s.hotels hq cim hProv now).1 with
  | none =>
    simp only [hh]
    exact h
  | some hr =>
    cases hp : (resolve_side s.pickup pq cim pProv now).1 with
    | none =>
      simp only [hh, hp]
      exact h
    | some pr =>
      simp only [hh, hp]
      exact upsert_link_noPairDup s.links hr.id hr.name pr.id pr.name
        priority notes now h

/-- `unlink_hotel_pickup` preserves pair uniqueness of the link table. -/
theorem unlink_noPairDup (s : Sys) (hotel pickup : Nat ⊕ Str)
    (h : noPairDup s.links.rows = true) :
    noPairDup (unlink_hotel_pickup s hotel pickup).2.links.rows = true := by
  unfold unlink_hotel_pickup
  cases hh : resolve_id_ro s.hotels hotel with
  | none => exact h
  | some hid =>
    cases hp : resolve_id_ro s.pickup pickup with
    | none => exact h
    | some pid =>
      simp only
      rw [noPairDup_iff_pairwise] at h ⊢
      exact List.Pairwise.sublist (List.filter_sublist _) h

/-- One call of the linking API. -/
inductive LinkOp where
  | link (hq pq : Str) (priority : Int) (notes : Str) (cim : Bool)
      (hProv pProv : Option Fetch) (now : Str)
  | unlink (hotel pickup : Nat ⊕ Str)

/-- The state transition of one linking call. -/
def linkStep (s : Sys) : LinkOp → Sys
  | LinkOp.link hq pq priority notes cim hProv pProv now =>
    (link_hotel_to_pickup s hq pq priority notes cim hProv pProv now).2
  | LinkOp.unlink h p => (unlink_hotel_pickup s h p).2

/-- Sample hotel record A of the C7 witness scenario. -/
def hRecA : Rec :=
  { id := 1, name := str "Hotel A", keywords := str "hotel a",
    street := [], city := [], address := [], lat := none, lng := none,
    place_id := [], created_at := [], updated_at := [], notes := [] }

/-- Sample pickup record B of the C7 witness scenario. -/
def pRecB : Rec :=
  { id := 1, name := str "Dam", keywords := str "dam square",
    street := [], city := [], address := [], lat := none, lng := none,
    place_id := [], created_at := [], updated_at := [], notes := [] }

/-- Sample store of the C7 scenario: one hotel, one pickup, no links. -/
def sysAB : Sys :=
  { hotels := { rows := [hRecA], nextId := 2 },
    pickup := { rows := [pRecB], nextId := 2 },
    links := { rows := [], nextId := 1 } }

/-- C7: from an empty link table, every state reachable by the linking
operations (`link_hotel_to_pickup` and `unlink_hotel_pickup`, with arbitrary
arguments and provider behaviours) has at most one link row per
`(hotel_id, pickup_id)` pair; and concretely, `link(A, B, priority=1)`
followed by `link(A, B, priority=2)` leaves exactly one row, for the pair
`(A, B)`, with priority `2` — the second call updated the row in place. -/
theorem C7_link_pair_unique :
    (∀ s0 : Sys, s0.links.rows = [] → ∀ ops : List LinkOp,
       noPairDup ((ops.foldl linkStep s0).links.rows) = true) ∧
    ((link_hotel_to_pickup (link_hotel_to_pickup sysAB (str "hotel a")
        (str "dam square") 1 [] true none none (str "t1")).2 (str "hotel a")
        (str "dam square") 2 [] true none none (str "t2")).2.links.rows.map
      (fun r => (r.hotel_id, r.pickup_id, r.priority)) = [(1, 1, 2)]) := by
  constructor
  · intro s0 h0 ops
    have hstep : ∀ (s : Sys), noPairDup s.links.rows = true →
        ∀ op : LinkOp, noPairDup ((linkStep s op).links.rows) = true := by
      intro s hs op
      cases op with
      | link hq pq priority notes cim hProv pProv now =>
        exact link_noPairDup s hq pq priority notes cim hProv pProv now hs
      | unlink h p => exact unlink_noPairDup s h p hs
    have : ∀ (l : List LinkOp) (s : Sys), noPairDup s.links.rows = true →
        noPairDup ((l.foldl linkStep s).links.rows) = true := by
      intro l
      induction l with
      | nil => intro s hs; exact hs
      | cons op rest ih =>
        intro s hs
        exact ih (linkStep s op) (hstep s hs op)
    exact this ops s0 (by rw [h0]; rfl)
  · decide

/-- Witness for C7: the two-call scenario run through the fold. -/
theorem C7_link_pair_unique_witness :
    sysAB.links.rows = [] ∧
    noPairDup ((([LinkOp.link (str "hotel a") (str "dam square") 1 [] true
        none none (str "t1"),
      LinkOp.link (str "hotel a") (str "dam square") 2 [] true none none
        (str "t2")]).foldl linkStep sysAB).links.rows) = true :=
  ⟨rfl,
   C7_link_pair_unique.1 sysAB rfl
     [LinkOp.link (str "hotel a") (str "dam square") 1 [] true none none
        (str "t1"),
      LinkOp.link (str "hotel a") (str "dam square") 2 [] true none none
        (str "t2")]⟩

/-- C8: when either side of `link_hotel_to_pickup` fails to resolve (including
`create_if_missing = false` or a failing provider), the call returns `none`
and the link table is left exactly as it was — no partial link row is ever
written.  (The place tables may still have been written by the failed
resolution attempts, but the link table is untouched.) -/
theorem C8_no_partial_link (s : Sys) (hq pq : Str) (priority : Int)
    (notes : Str) (cim : Bool) (hProv pProv : Option Fetch) (now : Str)
    (h : (resolve_side s.hotels hq cim hProv now).1 = none ∨
         (resolve_side s.pickup pq cim pProv now).1 = none) :
    (link_hotel_to_pickup s hq pq priority notes cim hProv pProv now).1 = none ∧
    (link_hotel_to_pickup s hq pq priority notes cim hProv pProv now).2.links =
      s.links := by
  unfold link_hotel_to_pickup
  cases hh : (resolve_side s.hotels hq cim hProv now).1 with
  | none =>
    simp only [hh]
    exact ⟨trivial, trivial⟩
  | some hr =>
    cases hp : (resolve_side s.pickup pq cim pProv now).1 with
    | none =>
      simp only [hh, hp]
      exact ⟨trivial, trivial⟩
    | some pr =>
      rcases h with h | h
      · rw [hh] at h
        exact absurd h (by simp)
      · rw [hp] at h
        exact absurd h (by simp)

/-- The empty store. -/
def emptySys : Sys :=
  { hotels := emptyT, pickup := emptyT, links := { rows := [], nextId := 1 } }

/-- Witness for C8: with an empty store and `create_if_missing = false`, both
sides fail and the link table stays empty. -/
theorem C8_no_partial_link_witness :
    ((resolve_side emptySys.hotels (str "q7") false none (str "t1")).1 = none ∨
     (resolve_side emptySys.pickup (str "z9") false none (str "t1")).1 = none) ∧
    ((link_hotel_to_pickup emptySys (str "q7") (str "z9") 1 [] false none none
        (str "t1")).1 = none ∧
     (link_hotel_to_pickup emptySys (str "q7") (str "z9") 1 [] false none none
        (str "t1")).2.links = emptySys.links) :=
  ⟨Or.inl (by decide),
   C8_no_partial_link emptySys (str "q7") (str "z9") 1 [] false none none
     (str "t1") (Or.inl (by decide))⟩

theorem insPool_cons (x y : Option ℚ × ℚ × Rec) (ys : List (Option ℚ × ℚ × Rec)) :
    insPool x (y :: ys) = if poolLe x y then x :: y :: ys else y :: insPool x ys := rfl

theorem sortPool_cons (x : Option ℚ × ℚ × Rec) (l : List (Option ℚ × ℚ × Rec)) :
    sortPool (x :: l) = insPool x (sortPool l) := rfl

theorem mem_insPool (x z : Option ℚ × ℚ × Rec) (l : List (Option ℚ × ℚ × Rec)) :
    z ∈ insPool x l ↔ z = x ∨ z ∈ l := by
  induction l with
  | nil => simp [insPool]
  | cons y ys ih =>
    rw [insPool_cons]
    by_cases h : poolLe x y = true
    · simp [h]
    · rw [if_neg h]
      simp only [List.mem_cons, ih]
      tauto

theorem mem_sortPool (z : Option ℚ × ℚ × Rec) (l : List (Option ℚ × ℚ × Rec)) :
    z ∈ sortPool l ↔ z ∈ l := by
  induction l with
  | nil => exact Iff.rfl
  | cons x r ih =>
    rw [sortPool_cons, mem_insPool, ih]
    simp [List.mem_cons]

theorem poolLe_refl (x : Option ℚ × ℚ × Rec) : poolLe x x = true := by
  unfold poolLe
  rw [if_pos]
  · exact decide_eq_true le_rfl
  · cases hx : x.1 with
    | none => rfl
    | some q => exact decide_eq_true rfl

/-- A strictly smaller distance dominates the sort key in both directions. -/
theorem distLt_facts (a b : Option ℚ) (h : distLt a b = true) :
    distEq a b = false ∧ distEq b a = false ∧ distLt b a = false := by
  cases a with
  | none => exact absurd h (by simp [distLt])
  | some x =>
    cases b with
    | none => exact ⟨rfl, rfl, rfl⟩
    | some y =>
      have hxy : x < y := of_decide_eq_true h
      refine ⟨decide_eq_false ?_, decide_eq_false ?_, decide_eq_false ?_⟩
      · exact ne_of_lt hxy
      · exact (ne_of_lt hxy).symm
      · exact not_lt.mpr (le_of_lt hxy)

theorem poolLe_of_distLt (x y : Option ℚ × ℚ × Rec)
    (h : distLt x.1 y.1 = true) : poolLe x y = true := by
  unfold poolLe
  rw [if_neg, h]
  rw [(distLt_facts _ _ h).1]
  simp

theorem not_poolLe_of_distLt (x y : Option ℚ × ℚ × Rec)
    (h : distLt x.1 y.1 = true) : poolLe y x = false := by
  unfold poolLe
  rw [if_neg, (distLt_facts _ _ h).2.2]
  rw [(distLt_facts _ _ h).2.1]
  simp

/-- The head of the sorted pool is the unique pool entry with strictly
smallest distance. -/
theorem sortPool_head (l : List (Option ℚ × ℚ × Rec)) (x : Option ℚ × ℚ × Rec)
    (hx : x ∈ l) (hmin : ∀ y ∈ l, y = x ∨ distLt x.1 y.1 = true) :
    ∃ tl, sortPool l = x :: tl := by
  induction l with
  | nil => exact absurd hx (by simp)
  | cons a r ih =>
    by_cases hax : a = x
    · subst hax
      by_cases hxr : a ∈ r
      · obtain ⟨tl, htl⟩ := ih hxr (fun y hy => hmin y (List.mem_cons_of_mem a hy))
        rw [sortPool_cons, htl, insPool_cons, if_pos (poolLe_refl a)]
        exact ⟨a :: tl, rfl⟩
      · cases hr : sortPool r with
        | nil =>
          rw [sortPool_cons, hr]
          exact ⟨[], rfl⟩
        | cons h t =>
          have hhr : h ∈ r := (mem_sortPool h r).mp (by rw [hr]; exact List.mem_cons_self h t)
          have hd : h = a ∨ distLt a.1 h.1 = true := hmin h (List.mem_cons_of_mem a hhr)
          rcases hd with hd | hd
          · exact absurd (hd ▸ hhr) hxr
          · rw [sortPool_cons, hr, insPool_cons, if_pos (poolLe_of_distLt a h hd)]
            exact ⟨h :: t, rfl⟩
    · have hdom : distLt x.1 a.1 = true := by
        rcases hmin a (List.mem_cons_self a r) with hd | hd
        · exact absurd hd hax
        · exact hd
      have hxr : x ∈ r := by
        rcases List.mem_cons.mp hx with hd | hd
        · exact absurd hd.symm hax
        · exact hd
      obtain ⟨tl, htl⟩ := ih hxr (fun y hy => hmin y (List.mem_cons_of_mem a hy))
      rw [sortPool_cons, htl, insPool_cons, if_neg (by
        rw [not_poolLe_of_distLt x a hdom]
        simp)]
      exact ⟨insPool a tl, rfl⟩

/-- C9: in the local stage of `search_address_near`, whenever an admitted
record (one passing the relaxed bar, hence a member of the pool) has a finite
distance that is strictly smaller than every other pool entry's, that record
is the one returned, for every distance kernel, candidate list and score
distribution; and on an exact distance tie the sort places the higher score
first (score only breaks exact distance ties). -/
theorem C9_nearest_selection :
    (∀ (dist : ℚ → ℚ → ℚ → ℚ → ℚ) (t : Table) (query : Str) (la ln : ℚ)
       (cands : List Cand) (now : Str) (d : ℚ) (sc : ℚ) (r : Rec),
       pyStrip query ≠ [] →
       (some d, sc, r) ∈ poolOf dist t query la ln →
       (∀ e ∈ poolOf dist t query la ln,
         e = (some d, sc, r) ∨ distLt (some d) e.1 = true) →
       (search_address_near dist t query la ln cands now).1 = some r) ∧
    (∀ (d s₁ s₂ : ℚ) (r₁ r₂ : Rec), s₂ < s₁ →
       sortPool [(some d, s₂, r₂), (some d, s₁, r₁)] =
         [(some d, s₁, r₁), (some d, s₂, r₂)]) := by
  constructor
  · intro dist t query la ln cands now d sc r hq hmem hmin
    obtain ⟨tl, htl⟩ := sortPool_head _ _ hmem hmin
    unfold search_address_near
    rw [if_neg hq, htl]
  · intro d s₁ s₂ r₁ r₂ h
    show insPool (some d, s₂, r₂) (insPool (some d, s₁, r₁) []) = _
    show insPool (some d, s₂, r₂) [(some d, s₁, r₁)] = _
    rw [insPool_cons, if_neg]
    · rfl
    · intro hc
      have he : poolLe (some d, s₂, r₂) (some d, s₁, r₁) = decide (s₁ ≤ s₂) := by
        unfold poolLe
        rw [if_pos (show distEq (some d, s₂, r₂).1 (some d, s₁, r₁).1 = true
          from decide_eq_true rfl)]
      rw [he] at hc
      exact absurd (of_decide_eq_true hc) (not_le.mpr h)

/-- Distance kernel of the C9 witness: the distance is the record's latitude
(so the two records sit 4000 and 50 units from the reference). -/
def wDist : ℚ → ℚ → ℚ → ℚ → ℚ := fun _ _ a _ => a

/-- Far record (scanned first) of the C9 witness. -/
def nRecFar : Rec :=
  { id := 1, name := str "A", keywords := str "q7", street := [], city := [],
    address := [], lat := some 4000, lng := some 0, place_id := [],
    created_at := [], updated_at := [], notes := [] }

/-- Near record of the C9 witness. -/
def nRecNear : Rec :=
  { id := 2, name := str "B", keywords := str "q7", street := [], city := [],
    address := [], lat := some 50, lng := some 0, place_id := [],
    created_at := [], updated_at := [], notes := [] }

/-- Table of the C9 witness. -/
def nT : Table := { rows := [nRecFar, nRecNear], nextId := 3 }

/-- Witness for C9: both records pass the relaxed bar (score 1); the one at
distance 50 is returned although the one at distance 4000 is scanned first. -/
theorem C9_nearest_selection_witness :
    pyStrip (str "q7") ≠ [] ∧
    (some 50, 1, nRecNear) ∈ poolOf wDist nT (str "q7") 0 0 ∧
    (∀ e ∈ poolOf wDist nT (str "q7") 0 0,
      e = (some 50, 1, nRecNear) ∨ distLt (some 50) e.1 = true) ∧
    (search_address_near wDist nT (str "q7") 0 0 [] (str "t1")).1 =
      some nRecNear :=
  ⟨by decide, by decide!, by decide!,
   C9_nearest_selection.1 wDist nT (str "q7") 0 0 [] (str "t1") 50 1 nRecNear
     (by decide) (by decide!) (by decide!)⟩
